import Mathlib

set_option maxHeartbeats 1000000

/-! Verification development for the Real Smart English repository.

    It shallowly embeds the two algorithmic cores of the repository:

    * the versioned, checksummed persistence envelope
      (src/appStore.persist.ts and the store in src/store/appStore.ts),
      together with a small executable JSON model standing in for the
    JavaScript JSON.stringify / JSON.parse pair (numbers are modelled as
      integers; strings are Unicode scalar sequences), and

    * the SRT parsing / chapter-extraction utility (src/srt.ts), with the
      JavaScript regular-expression passes compiled by hand to recursive
      character-list scanners with the same matching semantics.
-/

namespace JsonModel

/-- Hex digit character (lowercase), mirroring the lowercase hex digits that
    JSON.stringify uses in its unicode escapes. -/
def hexDigitChar (n : Nat) : Char :=
  if n < 10 then Char.ofNat (48 + n) else Char.ofNat (87 + n)

/-- Value of a hex digit, case insensitive, as accepted by JSON.parse. -/
def hexVal? (c : Char) : Option Nat :=
  if 48 ≤ c.toNat ∧ c.toNat ≤ 57 then some (c.toNat - 48)
  else if 97 ≤ c.toNat ∧ c.toNat ≤ 102 then some (c.toNat - 87)
  else if 65 ≤ c.toNat ∧ c.toNat ≤ 70 then some (c.toNat - 55)
  else none

/-- JSON values. Numbers are modelled as integers (all numeric fields the
    repository persists are integral); object fields are an ordered
    association list, as produced by a JSON parser. -/
inductive Json where
  | null
  | bool (b : Bool)
  | num (n : Int)
  | str (s : String)
  | arr (elems : List Json)
  | obj (fields : List (String × Json))

/-- Serialization of one string character, as JSON.stringify does it:
    quote and backslash get two-character escapes, the five short control
    escapes are used where they exist, all remaining control characters get
    a lowercase \xHH-style unicode escape, and everything else is literal. -/
def escapeChar (c : Char) : List Char :=
  if c = '"' then ['\\', '"']
  else if c = '\\' then ['\\', '\\']
  else if c = '\n' then ['\\', 'n']
  else if c = '\r' then ['\\', 'r']
  else if c = '\t' then ['\\', 't']
  else if c.toNat = 8 then ['\\', 'b']
  else if c.toNat = 12 then ['\\', 'f']
  else if c.toNat < 32 then
    ['\\', 'u', '0', '0', hexDigitChar (c.toNat / 16), hexDigitChar (c.toNat % 16)]
  else [c]

/-- Serialized JSON string literal, including the surrounding quotes. -/
def encodeStr (s : String) : List Char :=
  '"' :: (s.data.map escapeChar).flatten ++ ['"']

/-- Decimal digits of a natural number, most significant first. -/
def natDigits (n : Nat) : List Char :=
  if h : n < 10 then [Char.ofNat (48 + n)]
  else natDigits (n / 10) ++ [Char.ofNat (48 + n % 10)]
decreasing_by exact Nat.div_lt_self (by omega) (by omega)

/-- Decimal notation of an integer, as JavaScript prints integral numbers. -/
def intChars (n : Int) : List Char :=
  if n < 0 then '-' :: natDigits n.natAbs else natDigits n.natAbs

/-- The characters of the three JSON keyword literals. -/
def nullChars : List Char := ['n', 'u', 'l', 'l']

def trueChars : List Char := ['t', 'r', 'u', 'e']

def falseChars : List Char := ['f', 'a', 'l', 's', 'e']

mutual

/-- Characters of the JSON serialization of a value (JSON.stringify). -/
def encode : Json → List Char
  | .null => nullChars
  | .bool true => trueChars
  | .bool false => falseChars
  | .num n => intChars n
  | .str s => encodeStr s
  | .arr xs => '[' :: encodeElems xs ++ [']']
  | .obj fs => '\x7b' :: encodeFields fs ++ ['\x7d']
termination_by structural v => v

/-- Comma separated serializations of array elements. -/
def encodeElems : List Json → List Char
  | [] => []
  | [x] => encode x
  | x :: y :: rest => encode x ++ ',' :: encodeElems (y :: rest)
termination_by structural xs => xs

/-- Comma separated serializations of object fields. -/
def encodeFields : List (String × Json) → List Char
  | [] => []
  | [(k, v)] => encodeStr k ++ ':' :: encode v
  | (k, v) :: f :: rest => encodeStr k ++ ':' :: encode v ++ ',' :: encodeFields (f :: rest)
termination_by structural fs => fs

end

/-- JSON.stringify on the model. -/
def Json.stringify (v : Json) : String := String.mk (encode v)

/-- The four JSON whitespace characters. -/
def jsonWs (c : Char) : Bool := c = ' ' || c = '\t' || c = '\n' || c = '\r'

/-- Skip insignificant whitespace. -/
def skipWs (cs : List Char) : List Char := cs.dropWhile jsonWs

/-- Body of a JSON string literal, scanned after the opening quote; the
    accumulator holds already decoded characters in reverse.  Escapes are
    decoded as JSON.parse does, with case-insensitive hex digits; raw
    control characters are a syntax error. -/
def parseStrAux : List Char → List Char → Option (List Char × List Char)
  | _, [] => none
  | acc, c :: rest =>
    if c = '"' then some (acc.reverse, rest)
    else if c = '\\' then
      match rest with
      | '"' :: r => parseStrAux ('"' :: acc) r
      | '\\' :: r => parseStrAux ('\\' :: acc) r
      | '/' :: r => parseStrAux ('/' :: acc) r
      | 'b' :: r => parseStrAux (Char.ofNat 8 :: acc) r
      | 'f' :: r => parseStrAux (Char.ofNat 12 :: acc) r
      | 'n' :: r => parseStrAux ('\n' :: acc) r
      | 'r' :: r => parseStrAux ('\r' :: acc) r
      | 't' :: r => parseStrAux ('\t' :: acc) r
      | 'u' :: h1 :: h2 :: h3 :: h4 :: r =>
        match hexVal? h1, hexVal? h2, hexVal? h3, hexVal? h4 with
        | some a, some b, some c', some d =>
          parseStrAux (Char.ofNat (((a * 16 + b) * 16 + c') * 16 + d) :: acc) r
        | _, _, _, _ => none
      | _ => none
    else if c.toNat < 32 then none
    else parseStrAux (c :: acc) rest
termination_by structural _ cs => cs

/-- ASCII decimal digit test. -/
def isDigit (c : Char) : Bool := 48 ≤ c.toNat && c.toNat ≤ 57

/-- Consume a run of decimal digits, folding them into an accumulator. -/
def parseDigitsAux (acc : Nat) : List Char → Nat × List Char
  | [] => (acc, [])
  | c :: rest =>
    if isDigit c then parseDigitsAux (acc * 10 + (c.toNat - 48)) rest
    else (acc, c :: rest)

/-- Does the list start with a digit? -/
def digitHead : List Char → Bool
  | [] => false
  | d :: _ => isDigit d

/-- Integer literal after the optional minus sign.  Leading zeros are a
    syntax error, as in JSON. -/
def parseNumCore (neg : Bool) : List Char → Option (Json × List Char)
  | [] => none
  | c :: rest =>
    if isDigit c = false then none
    else if c = '0' && digitHead rest then none
    else
      let p := parseDigitsAux 0 (c :: rest)
      some (.num (if neg then -(p.1 : Int) else (p.1 : Int)), p.2)

/-- JSON number token (integral only, matching the integral numbers the
    repository serializes). -/
def parseNum (cs : List Char) : Option (Json × List Char) :=
  if cs.head? = some '-' then parseNumCore true cs.tail else parseNumCore false cs

mutual

/-- Parse one JSON value.  The fuel bounds the nesting depth; the top level
    wrapper supplies more fuel than any input can consume. -/
def parseVal : Nat → List Char → Option (Json × List Char)
  | 0, _ => none
  | _ + 1, [] => none
  | fuel + 1, c :: rest =>
    if c = 'n' then
      if rest.take 3 = ['u', 'l', 'l'] then some (.null, rest.drop 3) else none
    else if c = 't' then
      if rest.take 3 = ['r', 'u', 'e'] then some (.bool true, rest.drop 3) else none
    else if c = 'f' then
      if rest.take 4 = ['a', 'l', 's', 'e'] then some (.bool false, rest.drop 4) else none
    else if c = '"' then
      (parseStrAux [] rest).bind fun p => some (.str (String.mk p.1), p.2)
    else if c = '[' then
      let ws := skipWs rest
      if ws.head? = some ']' then some (.arr [], ws.tail)
      else (parseElems fuel ws).bind fun p => some (.arr p.1, p.2)
    else if c = '\x7b' then
      let ws := skipWs rest
      if ws.head? = some '\x7d' then some (.obj [], ws.tail)
      else (parseFields fuel ws).bind fun p => some (.obj p.1, p.2)
    else parseNum (c :: rest)
termination_by structural fuel cs => fuel

/-- Parse the elements of a nonempty array, up to and including the
    closing bracket. -/
def parseElems : Nat → List Char → Option (List Json × List Char)
  | 0, _ => none
  | fuel + 1, cs =>
    (parseVal fuel cs).bind fun p =>
      let ws := skipWs p.2
      if ws.head? = some ',' then
        (parseElems fuel (skipWs ws.tail)).bind fun q => some (p.1 :: q.1, q.2)
      else if ws.head? = some ']' then some ([p.1], ws.tail)
      else none
termination_by structural fuel cs => fuel

/-- Parse the fields of a nonempty object, up to and including the
    closing brace. -/
def parseFields : Nat → List Char → Option (List (String × Json) × List Char)
  | 0, _ => none
  | _ + 1, [] => none
  | fuel + 1, c :: rest =>
    if c = '"' then
      (parseStrAux [] rest).bind fun kp =>
        let ws := skipWs kp.2
        if ws.head? = some ':' then
          (parseVal fuel (skipWs ws.tail)).bind fun vp =>
            let ws2 := skipWs vp.2
            if ws2.head? = some ',' then
              (parseFields fuel (skipWs ws2.tail)).bind fun fp =>
                some ((String.mk kp.1, vp.1) :: fp.1, fp.2)
            else if ws2.head? = some '\x7d' then some ([(String.mk kp.1, vp.1)], ws2.tail)
            else none
        else none
    else none
termination_by structural fuel cs => fuel

end

/-- JSON.parse on the model: parse one value surrounded by optional
    whitespace; anything else is a syntax error (none). -/
def Json.parse (s : String) : Option Json :=
  match parseVal ((skipWs s.data).length + 1) (skipWs s.data) with
  | some (v, r) => if skipWs r = [] then some v else none
  | none => none

mutual

/-- Structural size of a JSON value, used as the induction measure for the
    round-trip proof. -/
def jsize : Json → Nat
  | .null => 1
  | .bool _ => 1
  | .num _ => 1
  | .str _ => 1
  | .arr xs => 1 + jsizeList xs
  | .obj fs => 1 + jsizeFields fs

/-- Size of an array element list. -/
def jsizeList : List Json → Nat
  | [] => 0
  | x :: rest => 1 + jsize x + jsizeList rest

/-- Size of an object field list. -/
def jsizeFields : List (String × Json) → Nat
  | [] => 0
  | (_, v) :: rest => 1 + jsize v + jsizeFields rest

end

/-- Character lists that may legally follow a serialized value inside a
    serialized document: end of input, a comma, or a closing bracket. -/
def isDelim : List Char → Bool
  | [] => true
  | c :: _ => c = ',' || c = ']' || c = '\x7d'

theorem toNat_ofNat_lt {k : Nat} (h : k < 55296) : (Char.ofNat k).toNat = k := by
  rw [Char.ofNat, dif_pos (Or.inl (by exact_mod_cast h))]
  rfl

theorem natDigits_ne_nil (n : Nat) : natDigits n ≠ [] := by
  rw [natDigits]
  split <;> simp

theorem natDigits_digits (n : Nat) : ∀ c ∈ natDigits n, isDigit c = true := by
  induction n using Nat.strong_induction_on with
  | _ n ih =>
    by_cases h : n < 10
    · rw [natDigits, dif_pos h]
      intro c hc
      simp only [List.mem_singleton] at hc
      subst hc
      simp [isDigit, toNat_ofNat_lt (by omega : 48 + n < 55296)]
      omega
    · rw [natDigits, dif_neg h]
      intro c hc
      rcases List.mem_append.mp hc with h1 | h2
      · exact ih (n / 10) (Nat.div_lt_self (by omega) (by omega)) c h1
      · simp only [List.mem_singleton] at h2
        subst h2
        have hm : n % 10 < 10 := Nat.mod_lt _ (by omega)
        simp [isDigit, toNat_ofNat_lt (by omega : 48 + n % 10 < 55296)]
        omega

theorem natDigits_head_ne_zero (n : Nat) (hn : 0 < n) :
    ∀ d ds, natDigits n = d :: ds → d ≠ '0' := by
  induction n using Nat.strong_induction_on with
  | _ n ih =>
    by_cases h : n < 10
    · rw [natDigits, dif_pos h]
      intro d ds hd
      simp only [List.cons.injEq] at hd
      obtain ⟨rfl, -⟩ := hd
      intro hc
      have : (Char.ofNat (48 + n)).toNat = 48 := by rw [hc]; rfl
      rw [toNat_ofNat_lt (by omega)] at this
      omega
    · rw [natDigits, dif_neg h]
      intro d ds hd
      have hne := natDigits_ne_nil (n / 10)
      rcases hq : natDigits (n / 10) with _ | ⟨d', ds'⟩
      · exact absurd hq hne
      · rw [hq] at hd
        simp only [List.cons_append, List.cons.injEq] at hd
        obtain ⟨rfl, -⟩ := hd
        exact ih (n / 10) (Nat.div_lt_self (by omega) (by omega))
          (Nat.div_pos (by omega) (by omega)) d' ds' hq

/-- The digit-fold step used by the parser. -/
def digitStep (a : Nat) (c : Char) : Nat := a * 10 + (c.toNat - 48)

theorem natDigits_foldl (n : Nat) : ∀ acc : Nat,
    (natDigits n).foldl digitStep acc = acc * 10 ^ (natDigits n).length + n := by
  induction n using Nat.strong_induction_on with
  | _ n ih =>
    intro acc
    by_cases h : n < 10
    · rw [natDigits, dif_pos h]
      simp [digitStep, toNat_ofNat_lt (by omega : 48 + n < 55296)]
    · rw [natDigits, dif_neg h]
      rw [List.foldl_append, ih (n / 10) (Nat.div_lt_self (by omega) (by omega)) acc]
      simp only [List.foldl_cons, List.foldl_nil, List.length_append, List.length_singleton]
      have hm : n % 10 < 10 := Nat.mod_lt _ (by omega)
      simp only [digitStep, toNat_ofNat_lt (by omega : 48 + n % 10 < 55296)]
      rw [pow_succ]
      have hdm := Nat.div_add_mod n 10
      have hd0 : (48 : Nat) + n % 10 - 48 = n % 10 := by omega
      rw [hd0]
      ring_nf
      omega

theorem parseDigitsAux_spec (ds : List Char) (hds : ∀ c ∈ ds, isDigit c = true) :
    ∀ (acc : Nat) (rest : List Char), digitHead rest = false →
    parseDigitsAux acc (ds ++ rest) = (ds.foldl digitStep acc, rest) := by
  induction ds with
  | nil =>
    intro acc rest hrest
    cases rest with
    | nil => rfl
    | cons c r =>
      simp only [digitHead] at hrest
      simp [parseDigitsAux, hrest]
  | cons c ds ih =>
    intro acc rest hrest
    have hc : isDigit c = true := hds c (List.mem_cons_self _ _)
    simp only [List.cons_append, parseDigitsAux, hc, if_pos, List.append_eq]
    rw [ih (fun d hd => hds d (List.mem_cons_of_mem _ hd)) _ rest hrest]
    rfl

theorem natDigits_length_pos (n : Nat) : 0 < (natDigits n).length := by
  have := natDigits_ne_nil n
  cases h : natDigits n with
  | nil => exact absurd h this
  | cons _ _ => simp

theorem parseNumCore_natDigits (m : Nat) (neg : Bool) (rest : List Char)
    (hrest : digitHead rest = false) :
    parseNumCore neg (natDigits m ++ rest) =
      some (.num (if neg then -(m : Int) else (m : Int)), rest) := by
  rcases hq : natDigits m with _ | ⟨d, ds⟩
  · exact absurd hq (natDigits_ne_nil m)
  · have hdig : ∀ c ∈ natDigits m, isDigit c = true := natDigits_digits m
    have hd : isDigit d = true := by rw [hq] at hdig; exact hdig d (List.mem_cons_self _ _)
    have hlz : (d = '0' && digitHead (ds ++ rest)) = false := by
      by_cases hm : m = 0
      · subst hm
        have h0 : natDigits 0 = ['0'] := by
          rw [natDigits, dif_pos (by omega : (0 : Nat) < 10)]
        rw [h0] at hq
        simp only [List.cons.injEq] at hq
        obtain ⟨-, rfl⟩ := hq
        simp [hrest]
      · have := natDigits_head_ne_zero m (by omega) d ds hq
        simp [this]
    simp only [List.cons_append, parseNumCore]
    rw [if_neg (by simp [hd]), if_neg (by simp [hlz])]
    have : parseDigitsAux 0 ((d :: ds) ++ rest) = ((d :: ds).foldl digitStep 0, rest) := by
      rw [← hq]
      exact parseDigitsAux_spec _ hdig 0 rest hrest
    simp only [List.cons_append] at this
    simp only [this]
    have hfold : (d :: ds).foldl digitStep 0 = m := by
      rw [← hq, natDigits_foldl]
      simp
    rw [hfold]

theorem digit_toNat_ge (c : Char) (h : isDigit c = true) : 48 ≤ c.toNat ∧ c.toNat ≤ 57 := by
  simp only [isDigit, Bool.and_eq_true, decide_eq_true_eq] at h
  exact h

theorem parseNum_encode (n : Int) (rest : List Char) (hrest : digitHead rest = false) :
    parseNum (intChars n ++ rest) = some (.num n, rest) := by
  by_cases hn : n < 0
  · have hich : intChars n = '-' :: natDigits n.natAbs := by rw [intChars, if_pos hn]
    rw [hich]
    simp only [List.cons_append, parseNum, List.head?_cons, List.tail_cons, if_pos rfl]
    rw [parseNumCore_natDigits _ _ _ hrest]
    have hio : -((n.natAbs : Int)) = n := by omega
    rw [if_pos rfl, hio]
    exact if_pos trivial
  · have hich : intChars n = natDigits n.natAbs := by rw [intChars, if_neg hn]
    have hneg : (natDigits n.natAbs ++ rest).head? ≠ some '-' := by
      rcases hq : natDigits n.natAbs with _ | ⟨d, ds⟩
      · exact absurd hq (natDigits_ne_nil _)
      · have hd : isDigit d = true := by
          have hdall := natDigits_digits n.natAbs
          rw [hq] at hdall
          exact hdall d (List.mem_cons_self _ _)
        have hge := digit_toNat_ge d hd
        simp only [List.cons_append, List.head?_cons, ne_eq, Option.some.injEq]
        intro hcon
        rw [hcon] at hge
        simp at hge
    rw [hich, parseNum, if_neg hneg, parseNumCore_natDigits _ _ _ hrest]
    have hio : ((n.natAbs : Int)) = n := by omega
    rw [if_neg (by simp), hio]

theorem skipWs_cons (c : Char) (cs : List Char) (h : jsonWs c = false) :
    skipWs (c :: cs) = c :: cs := by
  simp [skipWs, List.dropWhile_cons, h]

theorem hexVal?_hexDigitChar (k : Nat) (h : k < 16) : hexVal? (hexDigitChar k) = some k := by
  interval_cases k <;> decide

theorem parseStrAux_cons (acc : List Char) (c : Char) (tail : List Char) :
    parseStrAux acc (c :: tail) =
      if c = '"' then some (acc.reverse, tail)
      else if c = '\\' then
        match tail with
        | '"' :: r => parseStrAux ('"' :: acc) r
        | '\\' :: r => parseStrAux ('\\' :: acc) r
        | '/' :: r => parseStrAux ('/' :: acc) r
        | 'b' :: r => parseStrAux (Char.ofNat 8 :: acc) r
        | 'f' :: r => parseStrAux (Char.ofNat 12 :: acc) r
        | 'n' :: r => parseStrAux ('\n' :: acc) r
        | 'r' :: r => parseStrAux ('\r' :: acc) r
        | 't' :: r => parseStrAux ('\t' :: acc) r
        | 'u' :: h1 :: h2 :: h3 :: h4 :: r =>
          (match hexVal? h1, hexVal? h2, hexVal? h3, hexVal? h4 with
           | some a, some b, some c', some d =>
             parseStrAux (Char.ofNat (((a * 16 + b) * 16 + c') * 16 + d) :: acc) r
           | _, _, _, _ => none)
        | _ => none
      else if c.toNat < 32 then none
      else parseStrAux (c :: acc) tail := by
  rw [parseStrAux.eq_def]

theorem parseStrAux_escape (c : Char) (acc tail : List Char) :
    parseStrAux acc (escapeChar c ++ tail) = parseStrAux (c :: acc) tail := by
  by_cases h1 : c = '"'
  · subst h1; rfl
  by_cases h2 : c = '\\'
  · subst h2; rw [escapeChar]; rfl
  by_cases h3 : c = '\n'
  · subst h3; rw [escapeChar]; rfl
  by_cases h4 : c = '\r'
  · subst h4; rw [escapeChar]; rfl
  by_cases h5 : c = '\t'
  · subst h5; rw [escapeChar]; rfl
  by_cases h6 : c.toNat = 8
  · have hc : c = Char.ofNat 8 := by rw [← h6, Char.ofNat_toNat]
    rw [escapeChar, if_neg h1, if_neg h2, if_neg h3, if_neg h4, if_neg h5, if_pos h6]
    simp only [List.cons_append, List.nil_append, parseStrAux]
    rw [if_pos trivial, hc]
    simp
  by_cases h7 : c.toNat = 12
  · have hc : c = Char.ofNat 12 := by rw [← h7, Char.ofNat_toNat]
    rw [escapeChar, if_neg h1, if_neg h2, if_neg h3, if_neg h4, if_neg h5, if_neg h6, if_pos h7]
    simp only [List.cons_append, List.nil_append, parseStrAux]
    rw [if_pos trivial, hc]
    simp
  by_cases h8 : c.toNat < 32
  · rw [escapeChar, if_neg h1, if_neg h2, if_neg h3, if_neg h4, if_neg h5, if_neg h6,
      if_neg h7, if_pos h8]
    simp only [List.cons_append, List.nil_append, parseStrAux]
    rw [if_pos trivial]
    have hv1 : hexVal? '0' = some 0 := by decide
    have hv2 : hexVal? (hexDigitChar (c.toNat / 16)) = some (c.toNat / 16) :=
      hexVal?_hexDigitChar _ (by omega)
    have hv3 : hexVal? (hexDigitChar (c.toNat % 16)) = some (c.toNat % 16) :=
      hexVal?_hexDigitChar _ (Nat.mod_lt _ (by omega))
    simp only [hv1, hv2, hv3]
    have harith : ((0 * 16 + 0) * 16 + c.toNat / 16) * 16 + c.toNat % 16 = c.toNat := by
      omega
    rw [harith, Char.ofNat_toNat]
    simp
  · rw [escapeChar, if_neg h1, if_neg h2, if_neg h3, if_neg h4, if_neg h5, if_neg h6,
      if_neg h7, if_neg h8]
    simp only [List.singleton_append]
    rw [parseStrAux_cons, if_neg h1, if_neg h2, if_neg h8]

theorem parseStrAux_body (cs : List Char) : ∀ (acc rest : List Char),
    parseStrAux acc ((cs.map escapeChar).flatten ++ '"' :: rest) =
      some (acc.reverse ++ cs, rest) := by
  induction cs with
  | nil =>
    intro acc rest
    simp only [List.map_nil, List.flatten_nil, List.nil_append]
    rw [parseStrAux_cons, if_pos rfl]
    simp
  | cons c cs ih =>
    intro acc rest
    simp only [List.map_cons, List.flatten_cons, List.append_assoc]
    rw [parseStrAux_escape, ih]
    simp

/-- Possible first characters of a serialized JSON value. -/
theorem encode_head (v : Json) : ∃ c cs, encode v = c :: cs ∧
    (c = 'n' ∨ c = 't' ∨ c = 'f' ∨ c = '"' ∨ c = '[' ∨ c = '\x7b' ∨
     c = '-' ∨ isDigit c = true) := by
  cases v with
  | null => exact ⟨'n', _, rfl, by tauto⟩
  | bool b => cases b with
    | true => exact ⟨'t', _, rfl, by tauto⟩
    | false => exact ⟨'f', _, rfl, by tauto⟩
  | num n =>
    by_cases hn : n < 0
    · exact ⟨'-', _, by rw [encode, intChars, if_pos hn], by tauto⟩
    · have hich : encode (.num n) = natDigits n.natAbs := by rw [encode, intChars, if_neg hn]
      rcases hq : natDigits n.natAbs with - | ⟨d, ds⟩
      · exact absurd hq (natDigits_ne_nil _)
      · refine ⟨d, ds, by rw [hich, hq], ?_⟩
        have := natDigits_digits n.natAbs
        rw [hq] at this
        exact Or.inr (Or.inr (Or.inr (Or.inr (Or.inr (Or.inr (Or.inr
          (this d (List.mem_cons_self _ _))))))))
  | str s => exact ⟨'"', _, by rw [encode, encodeStr, List.cons_append], by tauto⟩
  | arr xs => exact ⟨'[', _, rfl, by tauto⟩
  | obj fs => exact ⟨'\x7b', _, rfl, by tauto⟩

theorem encode_head_not_special (v : Json) :
    ∃ c cs, encode v = c :: cs ∧ jsonWs c = false ∧ c ≠ ']' ∧ c ≠ '\x7d' := by
  obtain ⟨c, cs, hv, hc⟩ := encode_head v
  refine ⟨c, cs, hv, ?_, ?_, ?_⟩
  · rcases hc with h | h | h | h | h | h | h | h
    all_goals first
      | (subst h; decide)
      | (have hdg := digit_toNat_ge c h
         have this := hdg
         simp only [jsonWs]
         have h1 : (c = ' ') = False := by
           simp only [eq_iff_iff, iff_false]
           intro hcon; rw [hcon] at this; simp at this
         have h2 : (c = '\t') = False := by
           simp only [eq_iff_iff, iff_false]
           intro hcon; rw [hcon] at this; simp at this
         have h3 : (c = '\n') = False := by
           simp only [eq_iff_iff, iff_false]
           intro hcon; rw [hcon] at this; simp at this
         have h4 : (c = '\r') = False := by
           simp only [eq_iff_iff, iff_false]
           intro hcon; rw [hcon] at this; simp at this
         simp [h1, h2, h3, h4])
  · rcases hc with h | h | h | h | h | h | h | h
    all_goals first
      | (subst h; decide)
      | (have hdg := digit_toNat_ge c h
         intro hcon; rw [hcon] at hdg; simp at hdg)
  · rcases hc with h | h | h | h | h | h | h | h
    all_goals first
      | (subst h; decide)
      | (have hdg := digit_toNat_ge c h
         intro hcon; rw [hcon] at hdg; simp at hdg)

theorem skipWs_encode_append (v : Json) (r : List Char) :
    skipWs (encode v ++ r) = encode v ++ r := by
  obtain ⟨c, cs, hv, hws, -, -⟩ := encode_head_not_special v
  rw [hv, List.cons_append, skipWs_cons _ _ hws]

theorem encode_null_eq : encode .null = ['n', 'u', 'l', 'l'] := by rw [encode.eq_def]; rfl

theorem encode_true_eq : encode (.bool true) = ['t', 'r', 'u', 'e'] := by
  rw [encode.eq_def]; rfl

theorem encode_false_eq : encode (.bool false) = ['f', 'a', 'l', 's', 'e'] := by
  rw [encode.eq_def]; rfl

theorem encode_num_eq (n : Int) : encode (.num n) = intChars n := by rw [encode.eq_def]

theorem encode_str_eq (s : String) : encode (.str s) = encodeStr s := by rw [encode.eq_def]

theorem encode_arr_eq (xs : List Json) : encode (.arr xs) = '[' :: encodeElems xs ++ [']'] := by
  rw [encode.eq_def]

theorem encode_obj_eq (fs : List (String × Json)) :
    encode (.obj fs) = '\x7b' :: encodeFields fs ++ ['\x7d'] := by
  rw [encode.eq_def]

theorem encodeElems_singleton (x : Json) : encodeElems [x] = encode x := by
  rw [encodeElems.eq_def]

theorem encodeElems_cons₂ (x y : Json) (t : List Json) :
    encodeElems (x :: y :: t) = encode x ++ ',' :: encodeElems (y :: t) := by
  rw [encodeElems.eq_def]

theorem encodeFields_singleton (k : String) (v : Json) :
    encodeFields [(k, v)] = encodeStr k ++ ':' :: encode v := by
  rw [encodeFields.eq_def]

theorem encodeFields_cons₂ (k : String) (v : Json) (g : String × Json)
    (t : List (String × Json)) :
    encodeFields ((k, v) :: g :: t) = encodeStr k ++ ':' :: encode v ++ ',' :: encodeFields (g :: t) := by
  rw [encodeFields.eq_def]

theorem jsize_pos (v : Json) : 1 ≤ jsize v := by
  cases v <;> simp [jsize]

theorem jsizeList_mem (x : Json) (xs : List Json) (h : x ∈ xs) : jsize x ≤ jsizeList xs := by
  induction xs with
  | nil => cases h
  | cons y t ih =>
    rcases List.mem_cons.mp h with rfl | hm
    · simp [jsizeList]; omega
    · have := ih hm
      simp [jsizeList]; omega

theorem jsizeFields_mem (kv : String × Json) (fs : List (String × Json)) (h : kv ∈ fs) :
    jsize kv.2 ≤ jsizeFields fs := by
  induction fs with
  | nil => cases h
  | cons g t ih =>
    rcases List.mem_cons.mp h with rfl | hm
    · rcases kv with ⟨k, v⟩
      simp [jsizeFields]
      omega
    · have := ih hm
      rcases g with ⟨k', v'⟩
      simp [jsizeFields]
      omega

theorem isDelim_digitHead (r : List Char) (h : isDelim r = true) : digitHead r = false := by
  cases r with
  | nil => rfl
  | cons c t =>
    simp only [isDelim, Bool.or_eq_true, decide_eq_true_eq] at h
    rcases h with (rfl | rfl) | rfl <;> rfl

theorem num_head_conds (c : Char) (h : c = '-' ∨ isDigit c = true) :
    c ≠ 'n' ∧ c ≠ 't' ∧ c ≠ 'f' ∧ c ≠ '"' ∧ c ≠ '[' ∧ c ≠ '\x7b' := by
  rcases h with rfl | h
  · refine ⟨by decide, by decide, by decide, by decide, by decide, by decide⟩
  · have := digit_toNat_ge c h
    refine ⟨?_, ?_, ?_, ?_, ?_, ?_⟩ <;>
      (intro hcon; rw [hcon] at this; simp at this)

theorem string_mk_data (s : String) : String.mk s.data = s := rfl

theorem encodeElems_head (x : Json) (t : List Json) :
    ∃ X, encodeElems (x :: t) = encode x ++ X := by
  cases t with
  | nil => exact ⟨[], by rw [encodeElems_singleton, List.append_nil]⟩
  | cons y t2 => exact ⟨',' :: encodeElems (y :: t2), encodeElems_cons₂ x y t2⟩

theorem encodeFields_head (k : String) (v : Json) (t : List (String × Json)) :
    ∃ X, encodeFields ((k, v) :: t) = encodeStr k ++ X := by
  cases t with
  | nil => exact ⟨':' :: encode v, encodeFields_singleton k v⟩
  | cons g t2 =>
    refine ⟨':' :: encode v ++ ',' :: encodeFields (g :: t2), ?_⟩
    rw [encodeFields_cons₂]
    simp [List.append_assoc]

theorem skipWs_encodeElems (xs : List Json) (hne : xs ≠ []) (r : List Char) :
    skipWs (encodeElems xs ++ r) = encodeElems xs ++ r := by
  cases xs with
  | nil => exact absurd rfl hne
  | cons x t =>
    obtain ⟨X, hX⟩ := encodeElems_head x t
    rw [hX, List.append_assoc]
    exact skipWs_encode_append x _

theorem skipWs_encodeStr_append (k : String) (r : List Char) :
    skipWs (encodeStr k ++ r) = encodeStr k ++ r := by
  rw [encodeStr]
  simp only [List.cons_append, List.append_assoc]
  rw [skipWs_cons _ _ (by decide)]

theorem skipWs_encodeFields (fs : List (String × Json)) (hne : fs ≠ []) (r : List Char) :
    skipWs (encodeFields fs ++ r) = encodeFields fs ++ r := by
  cases fs with
  | nil => exact absurd rfl hne
  | cons g t =>
    rcases g with ⟨k, v⟩
    obtain ⟨X, hX⟩ := encodeFields_head k v t
    rw [hX, List.append_assoc]
    exact skipWs_encodeStr_append k _

theorem encodeElems_append_head_ne (x : Json) (t : List Json) (r : List Char) :
    ((encodeElems (x :: t) ++ r).head? = some ']') = False ∧
    ((encodeElems (x :: t) ++ r).head? = some '\x7d') = False := by
  obtain ⟨X, hX⟩ := encodeElems_head x t
  obtain ⟨c, cs, hv, -, h1, h2⟩ := encode_head_not_special x
  rw [hX, List.append_assoc, hv, List.cons_append, List.head?_cons]
  constructor <;> (simp only [eq_iff_iff, iff_false, Option.some.injEq]; intro hcon)
  · exact h1 hcon
  · exact h2 hcon

theorem encodeFields_append_head_ne (k : String) (v : Json) (t : List (String × Json))
    (r : List Char) :
    ((encodeFields ((k, v) :: t) ++ r).head? = some '\x7d') = False := by
  obtain ⟨X, hX⟩ := encodeFields_head k v t
  rw [hX, List.append_assoc, encodeStr]
  simp only [List.cons_append, List.head?_cons]
  simp

theorem parseElems_encode (xs : List Json)
    (IH : ∀ x ∈ xs, ∀ (f : Nat) (r : List Char), jsize x < f → isDelim r = true →
      parseVal f (encode x ++ r) = some (x, r)) :
    ∀ (fuel : Nat) (rest : List Char), xs ≠ [] → jsizeList xs < fuel →
    parseElems fuel (encodeElems xs ++ ']' :: rest) = some (xs, rest) := by
  induction xs with
  | nil => intro fuel rest h _; exact absurd rfl h
  | cons x t ihl =>
    intro fuel rest _ hs
    obtain ⟨f, rfl⟩ : ∃ f, fuel = f + 1 := ⟨fuel - 1, by omega⟩
    have h1 : jsize x < f := by simp [jsizeList] at hs; have := jsize_pos x; omega
    cases t with
    | nil =>
      rw [encodeElems_singleton, parseElems.eq_2]
      rw [IH x (by simp) f (']' :: rest) h1 (by rfl)]
      simp [skipWs_cons ']' rest (by decide)]
    | cons y t2 =>
      have hgaps : jsizeList (y :: t2) < f := by
        simp [jsizeList] at hs ⊢
        omega
      rw [encodeElems_cons₂, List.append_assoc, List.cons_append, parseElems.eq_2]
      rw [IH x (by simp) f _ h1 (by rfl)]
      simp [skipWs_cons ',' (encodeElems (y :: t2) ++ ']' :: rest) (by decide),
        skipWs_encodeElems (y :: t2) (by simp) (']' :: rest),
        ihl (fun z hz => IH z (by simp [hz])) f rest (by simp) hgaps]

theorem parseFields_encode (fs : List (String × Json))
    (IH : ∀ kv ∈ fs, ∀ (f : Nat) (r : List Char), jsize kv.2 < f → isDelim r = true →
      parseVal f (encode kv.2 ++ r) = some (kv.2, r)) :
    ∀ (fuel : Nat) (rest : List Char), fs ≠ [] → jsizeFields fs < fuel →
    parseFields fuel (encodeFields fs ++ '\x7d' :: rest) = some (fs, rest) := by
  induction fs with
  | nil => intro fuel rest h _; exact absurd rfl h
  | cons g t ihl =>
    intro fuel rest _ hs
    rcases g with ⟨k, v⟩
    obtain ⟨f, rfl⟩ : ∃ f, fuel = f + 1 := ⟨fuel - 1, by omega⟩
    have h1 : jsize v < f := by
      simp [jsizeFields] at hs
      omega
    cases t with
    | nil =>
      rw [encodeFields_singleton, encodeStr]
      simp only [List.cons_append, List.append_assoc, List.singleton_append]
      rw [parseFields.eq_3, if_pos rfl]
      rw [parseStrAux_body]
      simp [skipWs_cons ':' (encode v ++ '\x7d' :: rest) (by decide),
        skipWs_encode_append v ('\x7d' :: rest),
        IH (k, v) (by simp) f ('\x7d' :: rest) h1 (by rfl),
        skipWs_cons '\x7d' rest (by decide), string_mk_data]
    | cons g2 t2 =>
      have h2 : jsizeFields (g2 :: t2) < f := by
        simp [jsizeFields] at hs ⊢
        omega
      rw [encodeFields_cons₂, encodeStr]
      simp only [List.cons_append, List.append_assoc, List.singleton_append]
      rw [parseFields.eq_3, if_pos rfl]
      rw [parseStrAux_body]
      simp [skipWs_cons ':' (encode v ++ ',' :: (encodeFields (g2 :: t2) ++ '\x7d' :: rest))
          (by decide),
        skipWs_encode_append v (',' :: (encodeFields (g2 :: t2) ++ '\x7d' :: rest)),
        IH (k, v) (by simp) f (',' :: (encodeFields (g2 :: t2) ++ '\x7d' :: rest)) h1 (by rfl),
        skipWs_cons ',' (encodeFields (g2 :: t2) ++ '\x7d' :: rest) (by decide),
        skipWs_encodeFields (g2 :: t2) (by simp) ('\x7d' :: rest),
        ihl (fun z hz => IH z (by simp [hz])) f rest (by simp) h2, string_mk_data]

theorem parseVal_encode : ∀ (N : Nat) (v : Json), jsize v ≤ N →
    ∀ (fuel : Nat) (rest : List Char), N < fuel → isDelim rest = true →
    parseVal fuel (encode v ++ rest) = some (v, rest) := by
  intro N
  induction N using Nat.strong_induction_on with
  | _ N IHN =>
    intro v hv fuel rest hfuel hrest
    obtain ⟨f, rfl⟩ : ∃ f, fuel = f + 1 := ⟨fuel - 1, by have := jsize_pos v; omega⟩
    cases v with
    | null =>
      rw [encode_null_eq]
      simp only [List.cons_append, List.nil_append]
      rw [parseVal.eq_3]
      simp
    | bool b =>
      cases b with
      | false =>
        rw [encode_false_eq]
        simp only [List.cons_append, List.nil_append]
        rw [parseVal.eq_3]
        simp
      | true =>
        rw [encode_true_eq]
        simp only [List.cons_append, List.nil_append]
        rw [parseVal.eq_3]
        simp
    | num n =>
      rw [encode_num_eq]
      have hh : ∃ c cs, intChars n = c :: cs ∧ (c = '-' ∨ isDigit c = true) := by
        by_cases hn : n < 0
        · exact ⟨'-', _, by rw [intChars, if_pos hn], Or.inl rfl⟩
        · rcases hq : natDigits n.natAbs with - | ⟨d, ds⟩
          · exact absurd hq (natDigits_ne_nil _)
          · refine ⟨d, ds, by rw [intChars, if_neg hn, hq], Or.inr ?_⟩
            have := natDigits_digits n.natAbs
            rw [hq] at this
            exact this d (List.mem_cons_self _ _)
      obtain ⟨c, cs, hic, hc⟩ := hh
      obtain ⟨hn1, hn2, hn3, hn4, hn5, hn6⟩ := num_head_conds c hc
      rw [hic, List.cons_append, parseVal.eq_3]
      rw [if_neg hn1, if_neg hn2, if_neg hn3, if_neg hn4, if_neg hn5, if_neg hn6]
      rw [← List.cons_append, ← hic]
      exact parseNum_encode n rest (isDelim_digitHead rest hrest)
    | str s =>
      rw [encode_str_eq, encodeStr]
      simp only [List.cons_append, List.append_assoc, List.singleton_append]
      rw [parseVal.eq_3]
      rw [if_neg (by decide), if_neg (by decide), if_neg (by decide), if_pos rfl]
      rw [parseStrAux_body]
      simp [string_mk_data]
    | arr xs =>
      rw [encode_arr_eq]
      simp only [List.cons_append, List.append_assoc, List.singleton_append, List.nil_append]
      rw [parseVal.eq_3]
      rw [if_neg (by decide), if_neg (by decide), if_neg (by decide), if_neg (by decide),
        if_pos rfl]
      cases xs with
      | nil =>
        rw [show encodeElems [] = [] from by rw [encodeElems.eq_def]]
        simp only [List.nil_append]
        rw [skipWs_cons _ _ (by decide)]
        simp
      | cons x t =>
        rw [skipWs_encodeElems (x :: t) (by simp) (']' :: rest)]
        obtain ⟨hne1, -⟩ := encodeElems_append_head_ne x t (']' :: rest)
        rw [if_neg (by rw [hne1]; exact id)]
        have hsz : jsizeList (x :: t) < f := by
          have : jsize (.arr (x :: t)) = 1 + jsizeList (x :: t) := by rw [jsize.eq_def]
          omega
        have IH' : ∀ z ∈ x :: t, ∀ (f' : Nat) (r' : List Char), jsize z < f' →
            isDelim r' = true → parseVal f' (encode z ++ r') = some (z, r') := by
          intro z hz f' r' hszz hdel
          have hzN : jsize z < N := by
            have hm := jsizeList_mem z (x :: t) hz
            have : jsize (.arr (x :: t)) = 1 + jsizeList (x :: t) := by rw [jsize.eq_def]
            omega
          exact IHN (jsize z) hzN z le_rfl f' r' hszz hdel
        rw [parseElems_encode (x :: t) IH' f rest (by simp) hsz]
        rfl
    | obj fs =>
      rw [encode_obj_eq]
      simp only [List.cons_append, List.append_assoc, List.singleton_append, List.nil_append]
      rw [parseVal.eq_3]
      rw [if_neg (by decide), if_neg (by decide), if_neg (by decide), if_neg (by decide),
        if_neg (by decide), if_pos rfl]
      cases fs with
      | nil =>
        rw [show encodeFields [] = [] from by rw [encodeFields.eq_def]]
        simp only [List.nil_append]
        rw [skipWs_cons _ _ (by decide)]
        simp
      | cons g t =>
        rcases g with ⟨k, v⟩
        rw [skipWs_encodeFields ((k, v) :: t) (by simp) ('\x7d' :: rest)]
        have hne1 := encodeFields_append_head_ne k v t ('\x7d' :: rest)
        rw [if_neg (by rw [hne1]; exact id)]
        have hsz : jsizeFields ((k, v) :: t) < f := by
          have : jsize (.obj ((k, v) :: t)) = 1 + jsizeFields ((k, v) :: t) := by
            rw [jsize.eq_def]
          omega
        have IH' : ∀ kv ∈ (k, v) :: t, ∀ (f' : Nat) (r' : List Char), jsize kv.2 < f' →
            isDelim r' = true → parseVal f' (encode kv.2 ++ r') = some (kv.2, r') := by
          intro kv hkv f' r' hszz hdel
          have hzN : jsize kv.2 < N := by
            have hm := jsizeFields_mem kv ((k, v) :: t) hkv
            have : jsize (.obj ((k, v) :: t)) = 1 + jsizeFields ((k, v) :: t) := by
              rw [jsize.eq_def]
            omega
          exact IHN (jsize kv.2) hzN kv.2 le_rfl f' r' hszz hdel
        rw [parseFields_encode ((k, v) :: t) IH' f rest (by simp) hsz]
        rfl

theorem jsizeList_le_len (xs : List Json)
    (H : ∀ x ∈ xs, jsize x ≤ (encode x).length) :
    jsizeList xs ≤ (encodeElems xs).length + 1 := by
  induction xs with
  | nil =>
    have h0 : jsizeList [] = 0 := by rw [jsizeList.eq_def]
    omega
  | cons x t iht =>
    have hx := H x (by simp)
    have hc : jsizeList (x :: t) = 1 + jsize x + jsizeList t := by rw [jsizeList.eq_def]
    cases t with
    | nil =>
      rw [encodeElems_singleton]
      have h0 : jsizeList ([] : List Json) = 0 := by rw [jsizeList.eq_def]
      omega
    | cons y t2 =>
      rw [encodeElems_cons₂]
      have h2 := iht (fun z hz => H z (by simp [hz]))
      simp only [List.length_append, List.length_cons]
      omega

theorem jsizeFields_le_len (fs : List (String × Json))
    (H : ∀ kv ∈ fs, jsize kv.2 ≤ (encode kv.2).length) :
    jsizeFields fs ≤ (encodeFields fs).length + 1 := by
  induction fs with
  | nil =>
    have h0 : jsizeFields [] = 0 := by rw [jsizeFields.eq_def]
    omega
  | cons g t iht =>
    rcases g with ⟨k, v⟩
    have hx : jsize v ≤ (encode v).length := H (k, v) (by simp)
    have hc : jsizeFields ((k, v) :: t) = 1 + jsize v + jsizeFields t := by
      rw [jsizeFields.eq_def]
    cases t with
    | nil =>
      rw [encodeFields_singleton]
      have h0 : jsizeFields ([] : List (String × Json)) = 0 := by rw [jsizeFields.eq_def]
      simp only [List.length_append, List.length_cons]
      omega
    | cons g2 t2 =>
      rw [encodeFields_cons₂]
      have h2 := iht (fun z hz => H z (by simp [hz]))
      simp only [List.length_append, List.length_cons]
      omega

theorem jsize_le_len : ∀ (N : Nat) (v : Json), jsize v ≤ N → jsize v ≤ (encode v).length := by
  intro N
  induction N using Nat.strong_induction_on with
  | _ N IHN =>
    intro v hv
    cases v with
    | null => rw [encode_null_eq]; simp [jsize]
    | bool b => cases b with
      | true => rw [encode_true_eq]; simp [jsize]
      | false => rw [encode_false_eq]; simp [jsize]
    | num n =>
      rw [encode_num_eq]
      have h1 : jsize (.num n) = 1 := by rw [jsize.eq_def]
      have h2 : intChars n ≠ [] := by
        rw [intChars]
        split
        · simp
        · exact natDigits_ne_nil _
      rw [h1]
      rcases hq : intChars n with - | ⟨d, ds⟩
      · exact absurd hq h2
      · simp
    | str s =>
      rw [encode_str_eq, encodeStr]
      have h1 : jsize (.str s) = 1 := by rw [jsize.eq_def]
      rw [h1]
      simp
    | arr xs =>
      rw [encode_arr_eq]
      have h1 : jsize (.arr xs) = 1 + jsizeList xs := by rw [jsize.eq_def]
      have H : ∀ x ∈ xs, jsize x ≤ (encode x).length := by
        intro x hx
        have hm := jsizeList_mem x xs hx
        exact IHN (jsize x) (by omega) x le_rfl
      have := jsizeList_le_len xs H
      simp only [List.length_cons, List.length_append, List.length_singleton]
      omega
    | obj fs =>
      rw [encode_obj_eq]
      have h1 : jsize (.obj fs) = 1 + jsizeFields fs := by rw [jsize.eq_def]
      have H : ∀ kv ∈ fs, jsize kv.2 ≤ (encode kv.2).length := by
        intro kv hkv
        have hm := jsizeFields_mem kv fs hkv
        exact IHN (jsize kv.2) (by omega) kv.2 le_rfl
      have := jsizeFields_le_len fs H
      simp only [List.length_cons, List.length_append, List.length_singleton]
      omega

theorem jsize_le_encode_length (v : Json) : jsize v ≤ (encode v).length :=
  jsize_le_len (jsize v) v le_rfl

/-- Round trip of the JSON model: parsing a serialized value recovers the
    value exactly (the analogue of JSON.parse (JSON.stringify v) being v). -/
theorem parse_stringify (v : Json) : Json.parse (Json.stringify v) = some v := by
  unfold Json.parse Json.stringify
  rw [show (String.mk (encode v)).data = encode v from rfl]
  obtain ⟨c, cs, hv, hws, -, -⟩ := encode_head_not_special v
  rw [hv, skipWs_cons _ _ hws, ← hv]
  have hlen : jsize v ≤ (encode v).length := jsize_le_encode_length v
  have hparse := parseVal_encode (jsize v) v le_rfl ((encode v).length + 1) [] (by omega)
    (by rfl)
  rw [List.append_nil] at hparse
  rw [hparse]
  rfl

/-- The serialization is injective: two values with the same serialization
    are equal. -/
theorem stringify_injective (v w : Json) (h : Json.stringify v = Json.stringify w) : v = w := by
  have hv := parse_stringify v
  have hw := parse_stringify w
  rw [h] at hv
  rw [hv] at hw
  exact (Option.some.injEq _ _).mp hw

/-- JavaScript truthiness of a JSON value. -/
def jsTruthy : Json → Bool
  | .null => false
  | .bool b => b
  | .num n => !(n == 0)
  | .str s => !(s == "")
  | .arr _ => true
  | .obj _ => true

/-- Last binding of a key in a field list.  JavaScript objects built by
    JSON.parse keep the value of the last duplicate key, so property access
    on a parsed object reads the last binding. -/
def lookupLast (fs : List (String × Json)) (k : String) : Option Json :=
  match fs with
  | [] => none
  | (k', v) :: rest =>
    match lookupLast rest k with
    | some r => some r
    | none => if k' = k then some v else none

/-- Property access o.k on a parsed JSON value: undefined (none) when the
    value is not an object or lacks the key. -/
def getField (v : Json) (k : String) : Option Json :=
  match v with
  | .obj fs => lookupLast fs k
  | _ => none

/-- Keys of an object field list. -/
def objKeys (fs : List (String × Json)) : List String := fs.map Prod.fst

/-- The JavaScript `key in obj` test. -/
def hasKey (fs : List (String × Json)) (k : String) : Bool :=
  (fs.map Prod.fst).contains k

/-- Assignment `obj.k = v` performed only when the key is absent: appends
    the binding at the end (JavaScript insertion order). -/
def addIfAbsent (fs : List (String × Json)) (k : String) (v : Json) :
    List (String × Json) :=
  if hasKey fs k then fs else fs ++ [(k, v)]

/-- Object spread of a JSON value, as the migration handlers' spread of the
    incoming data: objects contribute their fields, anything else nothing. -/
def jsSpread : Json → List (String × Json)
  | .obj fs => fs
  | _ => []

/-- Checksum of both persistence implementations: a digest (the function
    parameter, standing for SHA-256) of the JSON serialization. -/
def calculateChecksum (hash : String → String) (data : Json) : String :=
  hash (Json.stringify data)

theorem lookupLast_notin (fs : List (String × Json)) (k : String)
    (h : k ∉ fs.map Prod.fst) : lookupLast fs k = none := by
  induction fs with
  | nil => rfl
  | cons g rest ih =>
    rcases g with ⟨k', v⟩
    simp only [List.map_cons, List.mem_cons, not_or] at h
    rw [lookupLast, ih h.2, if_neg (fun hcon => h.1 hcon.symm)]

theorem lookupLast_append (fs gs : List (String × Json)) (k : String) :
    lookupLast (fs ++ gs) k =
      match lookupLast gs k with
      | some r => some r
      | none => lookupLast fs k := by
  induction fs with
  | nil =>
    simp only [List.nil_append]
    cases lookupLast gs k <;> rfl
  | cons g rest ih =>
    rcases g with ⟨k', v⟩
    rw [List.cons_append, lookupLast, ih, lookupLast]
    cases lookupLast gs k <;> cases lookupLast rest k <;> simp

theorem hasKey_iff (fs : List (String × Json)) (k : String) :
    hasKey fs k = true ↔ k ∈ fs.map Prod.fst := by
  simp [hasKey]

theorem lookupLast_of_hasKey_false (fs : List (String × Json)) (k : String)
    (h : hasKey fs k = false) : lookupLast fs k = none := by
  refine lookupLast_notin fs k (fun hmem => ?_)
  rw [← hasKey_iff] at hmem
  rw [h] at hmem
  cases hmem

theorem addIfAbsent_preserve (fs : List (String × Json)) (k' : String) (v : Json)
    (k : String) (h : hasKey fs k = true) :
    lookupLast (addIfAbsent fs k' v) k = lookupLast fs k ∧
    hasKey (addIfAbsent fs k' v) k = true := by
  rw [addIfAbsent]
  by_cases hk' : hasKey fs k' = true
  · rw [if_pos hk']
    exact ⟨rfl, h⟩
  · rw [if_neg hk']
    have hne : k' ≠ k := by
      intro rfl1
      rw [rfl1] at hk'
      exact hk' h
    constructor
    · rw [lookupLast_append]
      have : lookupLast [(k', v)] k = none := by
        rw [lookupLast, lookupLast, if_neg hne]
      rw [this]
    · rw [hasKey_iff] at h ⊢
      simp [h]

theorem addIfAbsent_absent (fs : List (String × Json)) (k' : String) (v : Json)
    (k : String) (h : hasKey fs k = false) (hne : k ≠ k') :
    lookupLast (addIfAbsent fs k' v) k = none ∧
    hasKey (addIfAbsent fs k' v) k = false := by
  rw [addIfAbsent]
  by_cases hk' : hasKey fs k' = true
  · rw [if_pos hk']
    exact ⟨lookupLast_of_hasKey_false fs k h, h⟩
  · rw [if_neg hk']
    constructor
    · rw [lookupLast_append]
      have h1 : lookupLast [(k', v)] k = none := by
        rw [lookupLast, lookupLast, if_neg (fun hcon => hne hcon.symm)]
      rw [h1, lookupLast_of_hasKey_false fs k h]
    · have := (Bool.not_eq_true _).mpr h
      rw [Bool.eq_false_iff]
      intro hcon
      rw [hasKey_iff] at hcon
      simp only [List.map_append, List.mem_append, List.map_cons, List.map_nil,
        List.mem_cons, List.not_mem_nil, or_false] at hcon
      rcases hcon with hc1 | hc2
      · rw [← hasKey_iff] at hc1
        rw [h] at hc1
        cases hc1
      · exact hne hc2

theorem addIfAbsent_add (fs : List (String × Json)) (k : String) (v : Json)
    (h : hasKey fs k = false) :
    lookupLast (addIfAbsent fs k v) k = some v ∧
    hasKey (addIfAbsent fs k v) k = true := by
  rw [addIfAbsent, if_neg (by simp [h])]
  constructor
  · rw [lookupLast_append]
    have h1 : lookupLast [(k, v)] k = some v := by
      rw [lookupLast, lookupLast, if_pos rfl]
    rw [h1]
  · rw [hasKey_iff]
    simp

/-- Sequential application of migration defaults, as the migration handlers
    do with one conditional assignment per field. -/
def applyDefaults (fs : List (String × Json)) (ds : List (String × Json)) :
    List (String × Json) :=
  ds.foldl (fun acc kv => addIfAbsent acc kv.1 kv.2) fs

theorem applyDefaults_preserve (ds : List (String × Json)) :
    ∀ (fs : List (String × Json)) (k : String), hasKey fs k = true →
    lookupLast (applyDefaults fs ds) k = lookupLast fs k ∧
    hasKey (applyDefaults fs ds) k = true := by
  induction ds with
  | nil => exact fun fs k h => ⟨rfl, h⟩
  | cons d rest ih =>
    intro fs k h
    rcases d with ⟨k', v⟩
    obtain ⟨h1, h2⟩ := addIfAbsent_preserve fs k' v k h
    obtain ⟨h3, h4⟩ := ih (addIfAbsent fs k' v) k h2
    exact ⟨h3.trans h1, h4⟩

theorem applyDefaults_absent (ds : List (String × Json)) :
    ∀ (fs : List (String × Json)) (k : String), hasKey fs k = false →
    k ∉ ds.map Prod.fst →
    lookupLast (applyDefaults fs ds) k = none ∧
    hasKey (applyDefaults fs ds) k = false := by
  induction ds with
  | nil => exact fun fs k h _ => ⟨lookupLast_of_hasKey_false fs k h, h⟩
  | cons d rest ih =>
    intro fs k h hnot
    rcases d with ⟨k', v⟩
    simp only [List.map_cons, List.mem_cons, not_or] at hnot
    obtain ⟨-, h2⟩ := addIfAbsent_absent fs k' v k h hnot.1
    obtain ⟨h3, h4⟩ := ih (addIfAbsent fs k' v) k h2 hnot.2
    exact ⟨h3, h4⟩

theorem applyDefaults_add (ds : List (String × Json)) :
    ∀ (fs : List (String × Json)) (k : String) (v : Json),
    (ds.map Prod.fst).Nodup → (k, v) ∈ ds → hasKey fs k = false →
    lookupLast (applyDefaults fs ds) k = some v := by
  induction ds with
  | nil => intro fs k v _ hmem; cases hmem
  | cons d rest ih =>
    intro fs k v hnd hmem h
    rcases d with ⟨k', v'⟩
    simp only [List.map_cons, List.nodup_cons] at hnd
    rcases List.mem_cons.mp hmem with heq | hmem'
    · rw [Prod.mk.injEq] at heq
      obtain ⟨rfl, rfl⟩ := heq
      obtain ⟨h1, h2⟩ := addIfAbsent_add fs k v h
      obtain ⟨h3, -⟩ := applyDefaults_preserve rest (addIfAbsent fs k v) k h2
      exact h3.trans h1
    · have hkne : k ≠ k' :=
        fun hcon => hnd.1 (hcon ▸ (List.mem_map_of_mem Prod.fst hmem'))
      obtain ⟨-, h2⟩ := addIfAbsent_absent fs k' v' k h hkne
      exact ih (addIfAbsent fs k' v') k v hnd.2 hmem' h2

end JsonModel

/-! Model of src/appStore.persist.ts: the envelope has shape
    (data, checksum) with the session version stored inside the data,
    and the checksum computed over the data alone. -/

namespace Persist

open JsonModel

/-- SESSION_VERSION of src/appStore.persist.ts. -/
def SESSION_VERSION : String := "3.0.0"

/-- The projected core object of buildPersistSnapshot: the version field is
    written first, followed by the projected state fields (the model takes
    the projected fields as its input). -/
def buildCore (fields : List (String × Json)) : Json :=
  .obj (("version", .str SESSION_VERSION) :: fields)

/-- buildPersistSnapshot: data plus checksum over the data alone. -/
def buildPersistSnapshot (hash : String → String) (core : Json) : Json :=
  .obj [("data", core), ("checksum", .str (calculateChecksum hash core))]

/-- savePersistedState: serialize the snapshot and write it to the store
    (the model returns the written store cell; the claims under test
    condition on the write succeeding). -/
def savePersistedState (hash : String → String) (core : Json) : Option String :=
  some (Json.stringify (buildPersistSnapshot hash core))

/-- Default roleConfig object added by migrateState. -/
def defaultRoleConfig : Json :=
  .obj [
    ("host", .obj [("name", .str "Luna"), ("tone", .str "warm, clear, patient")]),
    ("coach", .obj [("name", .str "Liam"), ("tone", .str "helpful, concise, encouraging")]),
    ("characters", .arr [
      .obj [("name", .str "Ava"), ("role", .str "learner"), ("note", .str "A2-B1 mistakes")],
      .obj [("name", .str "Sam"), ("role", .str "clerk"),
        ("note", .str "native, simple speech")]])]

/-- migrateState: spread the incoming data and add each missing field of
    the fixed migration list with its default. -/
def migrateState (d : Json) : Json :=
  let m := jsSpread d
  let m := addIfAbsent m "version" (.str SESSION_VERSION)
  let m := addIfAbsent m "dailyScriptMode" (.str "Podcast")
  let m := addIfAbsent m "useSrtAsCore" (.bool true)
  let m := addIfAbsent m "seoBundle" .null
  let m := addIfAbsent m "uploadPack" .null
  let m := addIfAbsent m "coreAudioSrt" .null
  let m := addIfAbsent m "roleConfig" defaultRoleConfig
  .obj m

/-- The version test of loadPersistedState: data.version === SESSION_VERSION. -/
def versionOk (d : Json) : Bool :=
  match getField d "version" with
  | some (.str v) => v = SESSION_VERSION
  | _ => false

/-- loadPersistedState.  Returns the loaded partial state (or none) together
    with the resulting store cell; every catch and checksum-mismatch path
    removes the stored key (store becomes none).  The re-save after a
    migration re-projects the migrated partial state; the projection reads
    exactly the persisted fields, modelled as the identity on the data. -/
def loadPersistedState (hash : String → String) (store : Option String) :
    Option Json × Option String :=
  match store with
  | none => (none, none)
  | some raw =>
    match Json.parse raw with
    | none => (none, none)
    | some (.obj fs) =>
      (match lookupLast fs "data" with
       | some d =>
         if jsTruthy d = false then (none, none)
         else
           (match lookupLast fs "checksum" with
            | some (.str checksum) =>
              if checksum = calculateChecksum hash d then
                if versionOk d then (some d, some raw)
                else
                  (some (migrateState d), savePersistedState hash (migrateState d))
              else (none, none)
            | _ => (none, none))
       | none => (none, none))
    | some _ => (none, none)

end Persist

/-! Model of the persistence section of src/store/appStore.ts (part_003):
    the envelope has shape (version, data, checksum) with the checksum
    computed over the object with fields version and data. -/

namespace Store

open JsonModel

/-- SESSION_VERSION of the appStore.ts store. -/
def SESSION_VERSION : String := "4.0.0"

/-- The object literal (version, data) the checksum is computed over.
    JSON.stringify drops properties whose value is undefined, so a missing
    version field disappears from the serialization. -/
def versionData (version : Option Json) (data : Json) : Json :=
  match version with
  | some v => .obj [("version", v), ("data", data)]
  | none => .obj [("data", data)]

/-- persistSave: serialize the (version, data, checksum) envelope. -/
def persistSave (hash : String → String) (data : Json) : Option String :=
  some (Json.stringify (.obj [
    ("version", .str SESSION_VERSION),
    ("data", data),
    ("checksum", .str (calculateChecksum hash
      (versionData (some (.str SESSION_VERSION)) data)))]))

/-- Section keys of generationSections (src/types/index.ts). -/
def SECTION_KEYS : List String :=
  ["TITLE", "OVERVIEW", "READING_SECTION", "LISTENING_SECTION", "SPEAKING_SECTION",
   "WRITING_SECTION", "QUIZ_SECTION", "SUMMARY_SECTION", "DESIGN_SUGGESTIONS",
   "PODCAST_SCRIPT", "SHOW_NOTES", "SOCIAL_MEDIA_TEASER"]

/-- Default generationProgress: every section key mapped to pending. -/
def defaultGenerationProgress : Json :=
  .obj (SECTION_KEYS.map fun k => (k, .str "pending"))

/-- Default roleConfig object added by migrateSession. -/
def defaultRoleConfig : Json :=
  .obj [
    ("host", .obj [("name", .str "Luna"), ("tone", .str "warm, clear, patient")]),
    ("coach", .obj [("name", .str "Liam"), ("tone", .str "helpful, concise, encouraging")]),
    ("characters", .arr [
      .obj [("name", .str "Ava"), ("role", .str "learner"),
        ("note", .str "A2-B1 common mistakes")],
      .obj [("name", .str "Sam"), ("role", .str "clerk"),
        ("note", .str "native, simple speech")]])]

/-- The migration body of migrateSession, applied to the envelope's data. -/
def migrateData (dataIn : List (String × Json)) : Json :=
  let m := dataIn
  let m := addIfAbsent m "presetId" (.str "custom")
  let m := addIfAbsent m "generationProgress" defaultGenerationProgress
  let m := addIfAbsent m "dailyScriptMode" (.str "Podcast")
  let m := addIfAbsent m "isDailyScriptEngineEnabled" (.bool false)
  let m := addIfAbsent m "useSrtAsCore" (.bool true)
  let m := addIfAbsent m "seoTitleOverride" .null
  let m := addIfAbsent m "seoKeywordsOverride" .null
  let m := addIfAbsent m "seoBundle" .null
  let m := addIfAbsent m "uploadPack" .null
  let m := addIfAbsent m "coreAudioSrt" .null
  let m := addIfAbsent m "roleConfig" defaultRoleConfig
  .obj m

/-- migrateSession: null unless the argument is an object with a truthy
    string version; otherwise spread the envelope's data and fill in the
    missing fields of the fixed migration list. -/
def migrateSession (raw : Json) : Option Json :=
  match raw with
  | .obj fs =>
    (match lookupLast fs "version" with
     | some (.str v) =>
       if v = "" then none
       else
         some (migrateData (match lookupLast fs "data" with
           | some d => jsSpread d
           | none => []))
     | _ => none)
  | _ => none

/-- The version test of persistLoad: parsed.version === SESSION_VERSION. -/
def versionOk (fs : List (String × Json)) : Bool :=
  match lookupLast fs "version" with
  | some (.str v) => v = SESSION_VERSION
  | _ => false

/-- persistLoad.  Returns the loaded partial state (or none) and the
    resulting store cell.  A failed migration returns none without
    removing the key; parse failures and checksum mismatches remove it. -/
def persistLoad (hash : String → String) (store : Option String) :
    Option Json × Option String :=
  match store with
  | none => (none, none)
  | some raw =>
    match Json.parse raw with
    | none => (none, none)
    | some (.obj fs) =>
      (match lookupLast fs "data" with
       | some d =>
         if jsTruthy d = false then (none, none)
         else
           (match lookupLast fs "checksum" with
            | some (.str checksum) =>
              if checksum = calculateChecksum hash (versionData (lookupLast fs "version") d)
              then
                if versionOk fs then (some d, some raw)
                else
                  (match migrateSession (.obj fs) with
                   | some migrated =>
                     (some migrated, some (Json.stringify (.obj [
                       ("version", .str SESSION_VERSION),
                       ("data", migrated),
                       ("checksum", .str (calculateChecksum hash
                         (versionData (some (.str SESSION_VERSION)) migrated)))])))
                   | none => (none, some raw))
              else (none, none)
            | _ => (none, none))
       | none => (none, none))
    | some _ => (none, none)

end Store

namespace Persist

open JsonModel

/-- The fixed migration list of migrateState, in source order. -/
def migDefaults : List (String × Json) :=
  [("version", .str SESSION_VERSION), ("dailyScriptMode", .str "Podcast"),
   ("useSrtAsCore", .bool true), ("seoBundle", .null), ("uploadPack", .null),
   ("coreAudioSrt", .null), ("roleConfig", defaultRoleConfig)]

theorem migrateState_eq (d : Json) :
    migrateState d = .obj (applyDefaults (jsSpread d) migDefaults) := by
  rw [migrateState, applyDefaults, migDefaults]
  simp only [List.foldl_cons, List.foldl_nil]

end Persist

namespace Store

open JsonModel

/-- The fixed migration list of migrateSession, in source order. -/
def migDefaults : List (String × Json) :=
  [("presetId", .str "custom"), ("generationProgress", defaultGenerationProgress),
   ("dailyScriptMode", .str "Podcast"), ("isDailyScriptEngineEnabled", .bool false),
   ("useSrtAsCore", .bool true), ("seoTitleOverride", .null),
   ("seoKeywordsOverride", .null), ("seoBundle", .null), ("uploadPack", .null),
   ("coreAudioSrt", .null), ("roleConfig", defaultRoleConfig)]

theorem migrateData_eq (dataIn : List (String × Json)) :
    migrateData dataIn = .obj (applyDefaults dataIn migDefaults) := by
  rw [migrateData, applyDefaults, migDefaults]
  simp only [List.foldl_cons, List.foldl_nil]

end Store

/-! Model of the SRT utilities of src/srt.ts.  The JavaScript regular
    expressions are compiled by hand into character-list scanners; the
    comments on each definition record the regex it implements and how its
    backtracking resolves.  Strings are processed as character lists;
    timestamps are rational seconds. -/

namespace Srt

open JsonModel (natDigits)

/-- JavaScript whitespace (the regex class backslash-s and String.trim). -/
def isJsWs (c : Char) : Bool :=
  c.toNat = 9 || c.toNat = 10 || c.toNat = 11 || c.toNat = 12 || c.toNat = 13 ||
  c.toNat = 32 || c.toNat = 160 || c.toNat = 0x1680 ||
  (0x2000 ≤ c.toNat && c.toNat ≤ 0x200a) || c.toNat = 0x2028 || c.toNat = 0x2029 ||
  c.toNat = 0x202f || c.toNat = 0x205f || c.toNat = 0x3000 || c.toNat = 0xfeff

/-- String.trim: whitespace removed from both ends. -/
def jsTrim (cs : List Char) : List Char :=
  (((cs.dropWhile isJsWs).reverse).dropWhile isJsWs).reverse

/-- One pass of the global replacement of whitespace runs by single spaces;
    the flag records whether the previous character was part of a run. -/
def collapseWsAux : Bool → List Char → List Char
  | _, [] => []
  | prevWs, c :: rest =>
    if isJsWs c then
      if prevWs then collapseWsAux true rest
      else ' ' :: collapseWsAux true rest
    else c :: collapseWsAux false rest

/-- ASCII decimal digit. -/
def isDig (c : Char) : Bool := 48 ≤ c.toNat && c.toNat ≤ 57

/-- Value of a digit string (the Number conversion of an all-digit string). -/
def natOfDigits (ds : List Char) : Nat :=
  ds.foldl (fun a c => a * 10 + (c.toNat - 48)) 0

/-- End of an HTML-like tag: the content up to the first closing angle
    bracket must be nonempty (the regex tag body is one-or-more characters
    other than the closing bracket, followed by it). -/
def tagEnd (cs : List Char) : Option (List Char) :=
  let body := cs.takeWhile (· ≠ '>')
  match cs.dropWhile (· ≠ '>') with
  | '>' :: tail => if body.isEmpty then none else some tail
  | _ => none

/-- Global removal of HTML-like tags, each replaced by one space.  The
    fuel is the input length; every step consumes at least one character. -/
def stripTagsF : Nat → List Char → List Char
  | 0, cs => cs
  | _ + 1, [] => []
  | fuel + 1, c :: rest =>
    if c = '<' then
      match tagEnd rest with
      | some rest' => ' ' :: stripTagsF fuel rest'
      | none => '<' :: stripTagsF fuel rest
    else c :: stripTagsF fuel rest
termination_by structural fuel cs => fuel

def stripTags (cs : List Char) : List Char := stripTagsF cs.length cs

/-- End of an ASS-style override tag: nonempty content up to the first
    closing brace, followed by it. -/
def assEnd (cs : List Char) : Option (List Char) :=
  let body := cs.takeWhile (· ≠ '\x7d')
  match cs.dropWhile (· ≠ '\x7d') with
  | '\x7d' :: tail => if body.isEmpty then none else some tail
  | _ => none

/-- Global removal of ASS-style override tags (opening brace, backslash,
    nonempty body, closing brace), each replaced by one space. -/
def stripAssF : Nat → List Char → List Char
  | 0, cs => cs
  | _ + 1, [] => []
  | fuel + 1, c :: rest =>
    if c = '\x7b' then
      match rest with
      | '\\' :: rest2 =>
        (match assEnd rest2 with
         | some tail => ' ' :: stripAssF fuel tail
         | none => '\x7b' :: stripAssF fuel rest)
      | _ => '\x7b' :: stripAssF fuel rest
    else c :: stripAssF fuel rest
termination_by structural fuel cs => fuel

def stripAss (cs : List Char) : List Char := stripAssF cs.length cs

/-- ASCII capital letter. -/
def isUpperAZ (c : Char) : Bool := 65 ≤ c.toNat && c.toNat ≤ 90

/-- The speaker-label name class (letters, digits, dot, underscore, space,
    hyphen). -/
def labelClass (c : Char) : Bool :=
  (65 ≤ c.toNat && c.toNat ≤ 90) || (97 ≤ c.toNat && c.toNat ≤ 122) ||
  (48 ≤ c.toNat && c.toNat ≤ 57) || c = '.' || c = '_' || c = ' ' || c = '-'

/-- Removal of one leading speaker label (optional opening bracket, a
    capital letter, up to thirty name characters, optional closing bracket,
    a colon, whitespace).  The name class excludes the closing brackets and
    the colon, so regex backtracking can only succeed on the maximal name
    run, and a run longer than thirty kills the whole match. -/
def stripLabel (cs : List Char) : List Char :=
  let after0 := if cs.head? = some '[' || cs.head? = some '(' then cs.tail else cs
  match after0 with
  | c :: rest =>
    if isUpperAZ c then
      if (rest.takeWhile labelClass).length ≤ 30 then
        let rest2 := rest.dropWhile labelClass
        let rest3 :=
          if rest2.head? = some ']' || rest2.head? = some ')' then rest2.tail else rest2
        match rest3 with
        | ':' :: rest4 =>
          (match rest4 with
           | w :: _ => if isJsWs w then rest4.dropWhile isJsWs else cs
           | [] => cs)
        | _ => cs
      else cs
    else cs
  | [] => cs

/-- The bracketed-cue content class (letters of either case and space,
    matching the case-insensitive letter-or-space class of the regex). -/
def cueClass (c : Char) : Bool :=
  (65 ≤ c.toNat && c.toNat ≤ 90) || (97 ≤ c.toNat && c.toNat ≤ 122) || c = ' '

/-- One attempted match of the bracketed-cue regex at the start of the
    list (optional opening bracket, optional note or asterisk, two to forty
    letters or spaces, optional note or asterisk, a required closing
    bracket); returns the remainder after the match.  The content class
    excludes the note, asterisk and closing brackets, so only the maximal
    run can succeed, and runs longer than forty kill the match. -/
def tryCue (cs : List Char) : Option (List Char) :=
  let s1 := if cs.head? = some '[' || cs.head? = some '(' then cs.tail else cs
  let s2 := if s1.head? = some '♪' || s1.head? = some '*' then s1.tail else s1
  let runLen := (s2.takeWhile cueClass).length
  if 2 ≤ runLen ∧ runLen ≤ 40 then
    let s3 := s2.dropWhile cueClass
    let s4 := if s3.head? = some '♪' || s3.head? = some '*' then s3.tail else s3
    match s4 with
    | ']' :: rest => some rest
    | ')' :: rest => some rest
    | _ => none
  else none

/-- Global removal of bracketed cues, each replaced by one space. -/
def stripCuesF : Nat → List Char → List Char
  | 0, cs => cs
  | _ + 1, [] => []
  | fuel + 1, c :: rest =>
    match tryCue (c :: rest) with
    | some rest' => ' ' :: stripCuesF fuel rest'
    | none => c :: stripCuesF fuel rest
termination_by structural fuel cs => fuel

def stripCues (cs : List Char) : List Char := stripCuesF cs.length cs

/-- Normalization of curly quotes and dashes. -/
def normalizeChar (c : Char) : Char :=
  if c = '“' || c = '”' then '"'
  else if c = '‘' || c = '’' then '\''
  else if c = '–' || c = '—' then '-'
  else c

/-- The pure-punctuation line class. -/
def isPunctChar (c : Char) : Bool :=
  c = '.' || c = ',' || c = '-' || c = '—' || c = '–' || c = '!' || c = '?' ||
  c = ':' || c = ';'

/-- cleanLine on character lists: strip byte order marks and control
    characters, HTML and ASS tags, one leading speaker label, bracketed
    cues; normalize quotes and dashes; collapse whitespace and trim; drop
    pure punctuation lines. -/
def cleanLineL (s : List Char) : List Char :=
  let t1 := s.filter (fun c => c.toNat ≠ 0xfeff)
  let t2 := t1.map (fun c => if c.toNat ≤ 0x1f then ' ' else c)
  let t3 := stripTags t2
  let t4 := stripAss t3
  let t5 := stripLabel t4
  let t6 := stripCues t5
  let t7 := t6.map normalizeChar
  let t8 := jsTrim (collapseWsAux false t7)
  if t8 ≠ [] ∧ t8.all isPunctChar then [] else t8

/-- cleanLine of src/srt.ts. -/
def cleanLine (s : String) : String := String.mk (cleanLineL s.data)

/-- One parsed subtitle cue (SrtEntry of src/srt.ts).  Start and end times
    are modelled in exact integer milliseconds (an SRT timestamp is an
    integral number of milliseconds; the JavaScript float seconds value
    hours times 3600 plus minutes times 60 plus seconds plus
    milliseconds over 1000 is this count divided by 1000).  The stop field
    names the source's end field. -/
structure SrtEntry where
  index : Nat
  start : Int
  stop : Int
  text : String
deriving DecidableEq

/-- Milliseconds of an hours-minutes-seconds-milliseconds timestamp. -/
def tsToSec (h m s ms : Nat) : Int :=
  (h : Int) * 3600000 + (m : Int) * 60000 + (s : Int) * 1000 + (ms : Int)

/-- Two digits at the head of the list, with their value. -/
def take2 (cs : List Char) : Option (Nat × List Char) :=
  match cs with
  | a :: b :: rest =>
    if isDig a && isDig b then some ((a.toNat - 48) * 10 + (b.toNat - 48), rest) else none
  | _ => none

/-- Three digits at the head of the list, with their value. -/
def take3 (cs : List Char) : Option (Nat × List Char) :=
  match cs with
  | a :: b :: c :: rest =>
    if isDig a && isDig b && isDig c then
      some (((a.toNat - 48) * 10 + (b.toNat - 48)) * 10 + (c.toNat - 48), rest)
    else none
  | _ => none

/-- One required character at the head of the list. -/
def expectChar (c : Char) (cs : List Char) : Option (List Char) :=
  match cs with
  | d :: rest => if d = c then some rest else none
  | [] => none

/-- One timestamp group: two digits, colon, two digits, colon, two digits,
    comma, three digits. -/
def takeTsGroup (cs : List Char) : Option (Int × List Char) := do
  let (h, r1) ← take2 cs
  let r2 ← expectChar ':' r1
  let (m, r3) ← take2 r2
  let r4 ← expectChar ':' r3
  let (s, r5) ← take2 r4
  let r6 ← expectChar ',' r5
  let (ms, r7) ← take3 r6
  pure (tsToSec h m s ms, r7)

/-- One attempted match of the timestamp-line regex at the start of the
    list: a timestamp group, optional whitespace, the arrow, optional
    whitespace, a second timestamp group. -/
def tryTsAt (cs : List Char) : Option (Int × Int) := do
  let (t1, r1) ← takeTsGroup cs
  let r2 := r1.dropWhile isJsWs
  let r3 ← expectChar '-' r2
  let r4 ← expectChar '-' r3
  let r5 ← expectChar '>' r4
  let r6 := r5.dropWhile isJsWs
  let (t2, _) ← takeTsGroup r6
  pure (t1, t2)

/-- First match of the timestamp regex anywhere in the line. -/
def matchTs : List Char → Option (Int × Int)
  | [] => none
  | c :: rest =>
    match tryTsAt (c :: rest) with
    | some r => some r
    | none => matchTs rest

/-- Split on newline characters, as String.split does: a trailing newline
    yields a final empty line, and the empty string yields one empty line. -/
def splitLinesAux : List Char → List Char → List (List Char)
  | acc, [] => [acc.reverse]
  | acc, c :: rest =>
    if c = '\n' then acc.reverse :: splitLinesAux [] rest
    else splitLinesAux (c :: acc) rest
termination_by structural _ cs => cs

def splitLines (cs : List Char) : List (List Char) := splitLinesAux [] cs

/-- The scan loop of parseSrt over the remaining lines.  Each outer
    iteration consumes at least one line, so the line count is enough fuel.
    The count argument is the number of entries already emitted, used for
    positional index assignment. -/
def parseSrtLoop : Nat → List (List Char) → Nat → List SrtEntry
  | 0, _, _ => []
  | fuel + 1, lines, count =>
    match lines.dropWhile (fun l => jsTrim l = []) with
    | [] => []
    | l0 :: restLines =>
      let trimmed := jsTrim l0
      let isNum : Bool := !trimmed.isEmpty && trimmed.all isDig
      let idxVal := if isNum then natOfDigits trimmed else count + 1
      let lines2 := if isNum then restLines else l0 :: restLines
      match lines2 with
      | [] => []
      | tsLine :: rest2 =>
        if tsLine.isEmpty then []
        else
          match matchTs (jsTrim tsLine) with
          | none => parseSrtLoop fuel rest2 count
          | some (t1, t2) =>
            let textLines := rest2.takeWhile (fun l => jsTrim l ≠ [])
            let rest3 := rest2.dropWhile (fun l => jsTrim l ≠ [])
            let buf := (textLines.map cleanLineL).filter (· ≠ [])
            let text := jsTrim (collapseWsAux false (List.intercalate [' '] buf))
            if text ≠ [] then
              ⟨idxVal, t1, t2, String.mk text⟩ :: parseSrtLoop fuel rest3 (count + 1)
            else parseSrtLoop fuel rest3 count
termination_by structural fuel lines count => fuel

/-- Stable insertion by start time: an element moves left past exactly the
    strictly larger starts, which is the unique stable sort for the
    comparator a.start - b.start, the behaviour of the modern Array.sort. -/
def insertByStart (x : SrtEntry) : List SrtEntry → List SrtEntry
  | [] => [x]
  | e :: rest => if x.start < e.start then x :: e :: rest
                 else e :: insertByStart x rest

def sortByStart : List SrtEntry → List SrtEntry
  | [] => []
  | e :: rest => insertByStart e (sortByStart rest)

/-- parseSrt of src/srt.ts: split into lines, scan cue blocks, sort the
    entries by start time (stable, as the modern Array.sort is). -/
def parseSrt (raw : String) : List SrtEntry :=
  if raw = "" then []
  else
    let lines := splitLines (raw.data.filter (· ≠ '\r'))
    sortByStart (parseSrtLoop lines.length lines 0)

/-- Decimal digits of a natural number, most significant first, with
    explicit fuel so that the kernel can evaluate it (the fuel argument n+1
    always suffices). -/
def natToCharsAux : Nat → Nat → List Char
  | 0, _ => []
  | fuel + 1, n =>
    if n < 10 then [Char.ofNat (48 + n)]
    else natToCharsAux fuel (n / 10) ++ [Char.ofNat (48 + n % 10)]
termination_by structural fuel n => fuel

/-- The String conversion of a natural number. -/
def natToChars (n : Nat) : List Char := natToCharsAux (n + 1) n

/-- padStart(2, "0"). -/
def pad2 (cs : List Char) : List Char := List.replicate (2 - cs.length) '0' ++ cs

/-- secToHHMM of src/srt.ts, on the millisecond time scale of the model:
    the argument is the start time in milliseconds, so the source's
    Math.floor(sec) is the floor division of the milliseconds by one
    thousand.  Clamps at zero, omits the hours part when it is zero. -/
def secToHHMM (secMs : Int) : String :=
  let t := (max 0 (Int.fdiv secMs 1000)).toNat
  let hh := t / 3600
  let mm := t % 3600 / 60
  if hh > 0 then String.mk (pad2 (natToChars hh) ++ ':' :: pad2 (natToChars mm))
  else String.mk (pad2 (natToChars mm))

/-- The sentence-final punctuation class of pickTitle's regexes. -/
def isSentPunct (c : Char) : Bool := c = '.' || c = '!' || c = '?'

/-- Line terminators, which the regex dot does not match. -/
def isNlChar (c : Char) : Bool :=
  c = '\n' || c = '\r' || c.toNat = 0x2028 || c.toNat = 0x2029

/-- Search loop for the lazy sentence-cut regex: acc holds the reversed
    group so far (at least one dot-matched character); a match needs a
    punctuation character followed by a whitespace character, and the lazy
    one-or-more takes the shortest dot-matched run for which that follows
    (extending the run is the only backtracking possible, and a line
    terminator kills every longer run as well). -/
def sentAux : List Char → List Char → Option (List Char)
  | acc, p :: w :: rest =>
    if isSentPunct p && isJsWs w then some (p :: acc).reverse
    else if isNlChar p then none
    else sentAux (p :: acc) (w :: rest)
  | _, _ => none
termination_by structural _ cs => cs

/-- The preferSentenceEnds cut of pickTitle: the first sentence (shortest
    prefix of at least two characters ending in . ! or ? and followed by
    whitespace), or the whole text when the regex does not match. -/
def sentenceCut (cs : List Char) : List Char :=
  match cs with
  | [] => cs
  | c :: rest =>
    if isNlChar c then cs
    else match sentAux [c] rest with
         | some g => g
         | none => cs

/-- Removal of the trailing whitespace-then-punctuation run (the first and
    only possible match of the anchored regex is the maximal trailing
    punctuation run extended left over the maximal whitespace run). -/
def stripTrailingPunct (cs : List Char) : List Char :=
  match cs.reverse with
  | c :: _ =>
    if isSentPunct c then (((cs.reverse).dropWhile isSentPunct).dropWhile isJsWs).reverse
    else cs
  | [] => cs

/-- slice(0, e) with the JavaScript clamping of a negative end index. -/
def jsSliceTo (cs : List Char) (e : Int) : List Char :=
  cs.take (if e < 0 then ((cs.length : Int) + e).toNat else e.toNat)

/-- Whether pat is a prefix of cs. -/
def startsWithL : List Char → List Char → Bool
  | [], _ => true
  | _ :: _, [] => false
  | p :: ps, c :: cs => p = c && startsWithL ps cs

/-- Scan for the last occurrence of pat, carrying the position and the
    best index found so far. -/
def lastIndexOfFrom (pat : List Char) : List Char → Nat → Int → Int
  | [], i, best => if pat.isEmpty then (i : Int) else best
  | c :: rest, i, best =>
    lastIndexOfFrom pat rest (i + 1) (if startsWithL pat (c :: rest) then (i : Int) else best)
termination_by structural cs i best => cs

/-- String.lastIndexOf: the greatest index at which pat occurs, or -1. -/
def jsLastIndexOf (cs pat : List Char) : Int := lastIndexOfFrom pat cs 0 (-1)

/-- The regex word-character class (ASCII letters, digits, underscore). -/
def isWordChar (c : Char) : Bool :=
  (65 ≤ c.toNat && c.toNat ≤ 90) || (97 ≤ c.toNat && c.toNat ≤ 122) ||
  (48 ≤ c.toNat && c.toNat ≤ 57) || c = '_'

/-- The word-start capitalization replacement: a lowercase ASCII letter is
    uppercased exactly when the previous character is not a word character
    (the word-boundary condition before a letter); the flag carries whether
    the previous character was a word character. -/
def capAux : Bool → List Char → List Char
  | _, [] => []
  | prevWord, c :: rest =>
    (if !prevWord && 97 ≤ c.toNat && c.toNat ≤ 122 then Char.ofNat (c.toNat - 32) else c)
      :: capAux (isWordChar c) rest

def capitalizeWords (cs : List Char) : List Char := capAux false cs

/-- The shortening step of pickTitle, entered when the title exceeds
    titleMaxLen: cut at the last separator (space-dash-space,
    space-em-dash-space, comma-space or colon-space) inside a
    five-character lookahead slice when that separator lies beyond position
    twenty, then hard-cut with a trailing ellipsis when still too long. -/
def titleTruncate (m : Int) (t2 : List Char) : List Char :=
  if m < (t2.length : Int) then
    let cut := jsSliceTo t2 (m + 5)
    let lastSep := max (max (jsLastIndexOf cut [' ', '-', ' ']) (jsLastIndexOf cut [' ', '—', ' ']))
                       (max (jsLastIndexOf cut [',', ' ']) (jsLastIndexOf cut [':', ' ']))
    let t' := jsTrim (if 20 < lastSep then jsSliceTo cut lastSep else cut)
    if m < (t'.length : Int) then jsTrim (jsSliceTo t' (m - 1)) ++ ['…']
    else t'
  else t2

/-- pickTitle of extractChaptersFromSrt (src/srt.ts): trim, optionally cut
    at the first sentence end, strip trailing punctuation, shorten when
    longer than titleMaxLen, capitalize word starts, and fall back to
    "Chapter" when empty. -/
def pickTitle (pse : Bool) (titleMaxLen : Int) (txt : List Char) : List Char :=
  let t1 := if pse then sentenceCut (jsTrim txt) else jsTrim txt
  let t4 := capitalizeWords (titleTruncate titleMaxLen (stripTrailingPunct t1))
  if t4 = [] then "Chapter".data else t4

/-- One YouTube chapter ({at, title} of src/srt.ts); `anchor` names the
    source's `at` field, which is a reserved word here. -/
structure Chapter where
  anchor : String
  title : String
deriving DecidableEq

/-- The options object of extractChaptersFromSrt.  minGapSec is carried on
    the millisecond scale of the model's times, so the source default of
    sixty seconds is 60000. -/
structure ExtractOpts where
  minGapSec : Int
  titleMaxLen : Int
  preferSentenceEnds : Bool

def defaultOpts : ExtractOpts := ⟨60000, 48, true⟩

/-- The scan loop of extractChaptersFromSrt: an entry yields a chapter
    when the gap since the last anchor is at least minGapSec (the initial
    last anchor of negative infinity is modelled as none and always
    passes), its text has a word character and at least eighteen
    characters, and no accumulated chapter already has the same formatted
    anchor; only a pushed chapter advances the last anchor. -/
def chapterLoop (o : ExtractOpts) : List SrtEntry → Option Int → List Chapter → List Chapter
  | [], _, chapters => chapters
  | e :: rest, lastAnchor, chapters =>
    let gapOk : Bool := match lastAnchor with
      | none => true
      | some a => decide (o.minGapSec ≤ e.start - a)
    let contentful : Bool := e.text.data.any isWordChar && decide (18 ≤ e.text.length)
    if gapOk && contentful then
      let anchor := secToHHMM e.start
      let title := String.mk (pickTitle o.preferSentenceEnds o.titleMaxLen e.text.data)
      if chapters.any (fun c => c.anchor = anchor) then chapterLoop o rest lastAnchor chapters
      else chapterLoop o rest (some e.start) (chapters ++ [⟨anchor, title⟩])
    else chapterLoop o rest lastAnchor chapters
termination_by structural entries lastAnchor chapters => entries

/-- The fallback pass: when no chapter is anchored at "00", one is
    unshifted to the front, titled from the first entry's text (or "Intro"
    when there is no entry or its text is empty). -/
def addZeroAnchor (o : ExtractOpts) (entries : List SrtEntry) (chapters : List Chapter) :
    List Chapter :=
  if chapters.any (fun c => c.anchor = "00") then chapters
  else
    let firstText := match entries.head? with
      | some e => if e.text = "" then "Intro" else e.text
      | none => "Intro"
    ⟨"00", String.mk (pickTitle o.preferSentenceEnds o.titleMaxLen firstText.data)⟩ :: chapters

/-- ASCII lowercasing (the titles built here are ASCII; the full Unicode
    toLowerCase agrees on them). -/
def asciiLowerChar (c : Char) : Char :=
  if 65 ≤ c.toNat ∧ c.toNat ≤ 90 then Char.ofNat (c.toNat + 32) else c

def isLowerAlnum (c : Char) : Bool :=
  (97 ≤ c.toNat && c.toNat ≤ 122) || (48 ≤ c.toNat && c.toNat ≤ 57)

/-- The global replacement of runs outside [a-z0-9] by single spaces. -/
def collapseNonAlnum : Bool → List Char → List Char
  | _, [] => []
  | inRun, c :: rest =>
    if isLowerAlnum c then c :: collapseNonAlnum false rest
    else if inRun then collapseNonAlnum true rest
    else ' ' :: collapseNonAlnum true rest
termination_by structural _ cs => cs

/-- The dedup normalization key: lowercase, non-alphanumeric runs
    collapsed to single spaces, trimmed. -/
def normKey (cs : List Char) : List Char :=
  jsTrim (collapseNonAlnum false (cs.map asciiLowerChar))

/-- The final cleanup pass of extractChaptersFromSrt: a chapter is kept
    when its key is non-empty and differs from prev, and prev is set to the
    key on every iteration, kept or not. -/
def dedupLoop : List Chapter → List Char → List Chapter
  | [], _ => []
  | c :: rest, prev =>
    let k := normKey c.title.data
    if k ≠ [] ∧ k ≠ prev then c :: dedupLoop rest k else dedupLoop rest k
termination_by structural cs prev => cs

/-- extractChaptersFromSrt of src/srt.ts on an entries array. -/
def extractChaptersFromSrt (o : ExtractOpts) (entries : List SrtEntry) : List Chapter :=
  if entries.isEmpty then []
  else dedupLoop (addZeroAnchor o entries (chapterLoop o entries none [])) []

/-- extractChaptersFromSrt applied to raw SRT text: the source parses the
    string argument and proceeds identically. -/
def extractChaptersFromRaw (o : ExtractOpts) (raw : String) : List Chapter :=
  extractChaptersFromSrt o (parseSrt raw)

/-- A chapter annotated with the entry it was derived from (none for the
    synthesized "00" fallback); erasing the annotation recovers the
    source's computation exactly. -/
structure AChapter where
  c : Chapter
  src : Option SrtEntry
deriving DecidableEq

/-- The scan loop with source annotations. -/
def chapterLoopA (o : ExtractOpts) : List SrtEntry → Option Int → List AChapter → List AChapter
  | [], _, chapters => chapters
  | e :: rest, lastAnchor, chapters =>
    let gapOk : Bool := match lastAnchor with
      | none => true
      | some a => decide (o.minGapSec ≤ e.start - a)
    let contentful : Bool := e.text.data.any isWordChar && decide (18 ≤ e.text.length)
    if gapOk && contentful then
      let anchor := secToHHMM e.start
      let title := String.mk (pickTitle o.preferSentenceEnds o.titleMaxLen e.text.data)
      if chapters.any (fun c => c.c.anchor = anchor) then chapterLoopA o rest lastAnchor chapters
      else chapterLoopA o rest (some e.start) (chapters ++ [⟨⟨anchor, title⟩, some e⟩])
    else chapterLoopA o rest lastAnchor chapters
termination_by structural entries lastAnchor chapters => entries

/-- The fallback pass with source annotations. -/
def addZeroAnchorA (o : ExtractOpts) (entries : List SrtEntry) (chapters : List AChapter) :
    List AChapter :=
  if chapters.any (fun c => c.c.anchor = "00") then chapters
  else
    let firstText := match entries.head? with
      | some e => if e.text = "" then "Intro" else e.text
      | none => "Intro"
    ⟨⟨"00", String.mk (pickTitle o.preferSentenceEnds o.titleMaxLen firstText.data)⟩, none⟩
      :: chapters

/-- The dedup pass with source annotations. -/
def dedupLoopA : List AChapter → List Char → List AChapter
  | [], _ => []
  | c :: rest, prev =>
    let k := normKey c.c.title.data
    if k ≠ [] ∧ k ≠ prev then c :: dedupLoopA rest k else dedupLoopA rest k
termination_by structural cs prev => cs

/-- The extractor with source annotations. -/
def extractChaptersA (o : ExtractOpts) (entries : List SrtEntry) : List AChapter :=
  if entries.isEmpty then []
  else dedupLoopA (addZeroAnchorA o entries (chapterLoopA o entries none [])) []

/-- The dedup pass as the specification describes it, with prev advanced
    only to the key of the last KEPT chapter; written from the spec's
    words, for comparison with dedupLoop. -/
def dedupKeptLoop : List Chapter → List Char → List Chapter
  | [], _ => []
  | c :: rest, prevKept =>
    let k := normKey c.title.data
    if k ≠ [] ∧ k ≠ prevKept then c :: dedupKeptLoop rest k else dedupKeptLoop rest prevKept
termination_by structural cs prev => cs

theorem length_capAux (b : Bool) (cs : List Char) : (capAux b cs).length = cs.length := by
  induction cs generalizing b with
  | nil => rfl
  | cons c rest ih => simp [capAux, ih]

theorem length_capitalizeWords (cs : List Char) : (capitalizeWords cs).length = cs.length :=
  length_capAux false cs

theorem jsTrim_sublist (cs : List Char) : List.Sublist (jsTrim cs) cs := by
  unfold jsTrim
  have h2 : List.Sublist ((cs.dropWhile isJsWs).reverse.dropWhile isJsWs)
      (cs.dropWhile isJsWs).reverse := List.dropWhile_sublist _
  have h3 := h2.reverse
  rw [List.reverse_reverse] at h3
  exact h3.trans (List.dropWhile_sublist _)

theorem jsTrim_length_le (cs : List Char) : (jsTrim cs).length ≤ cs.length :=
  (jsTrim_sublist cs).length_le

theorem jsSliceTo_length_le (cs : List Char) (e : Int) (he : 0 ≤ e) :
    ((jsSliceTo cs e).length : Int) ≤ e := by
  unfold jsSliceTo
  rw [if_neg (by omega)]
  have h1 : (cs.take e.toNat).length ≤ e.toNat := by
    simp [List.length_take]
  omega

theorem trim_slice_append_len (x : List Char) (k : Int) (hk : 0 ≤ k) :
    ((jsTrim (jsSliceTo x k) ++ ['…']).length : Int) ≤ k + 1 := by
  have h1 := jsTrim_length_le (jsSliceTo x k)
  have h2 := jsSliceTo_length_le x k hk
  simp only [List.length_append, List.length_singleton]
  omega

theorem hardCutStep_length (m : Int) (h1m : 1 ≤ m) (t' : List Char) :
    (((if m < (t'.length : Int) then jsTrim (jsSliceTo t' (m - 1)) ++ ['…'] else t')).length :
      Int) ≤ m := by
  split_ifs with h
  · exact le_trans (trim_slice_append_len _ (m - 1) (by omega)) (by omega)
  · omega

theorem titleTruncate_length (m : Int) (t2 : List Char) (h1m : 1 ≤ m) :
    ((titleTruncate m t2).length : Int) ≤ m := by
  by_cases h1 : m < (t2.length : Int)
  · rw [titleTruncate, if_pos h1]
    exact hardCutStep_length m (by omega) _
  · rw [titleTruncate, if_neg h1]
    omega

theorem pickTitle_length (pse : Bool) (m : Int) (txt : List Char) (h7 : 7 ≤ m) :
    ((pickTitle pse m txt).length : Int) ≤ m := by
  simp only [pickTitle]
  split_ifs with hpse hE hE <;>
    first
      | (have h : (['C', 'h', 'a', 'p', 't', 'e', 'r'] : List Char).length = 7 := rfl
         omega)
      | (rw [length_capitalizeWords]
         exact titleTruncate_length m _ (by omega))

theorem chapterLoop_mem (o : ExtractOpts) :
    ∀ (entries : List SrtEntry) (a : Option Int) (acc : List Chapter) (c : Chapter),
      c ∈ chapterLoop o entries a acc →
      c ∈ acc ∨ ∃ e ∈ entries, c.anchor = secToHHMM e.start ∧
        c.title = String.mk (pickTitle o.preferSentenceEnds o.titleMaxLen e.text.data) := by
  intro entries
  induction entries with
  | nil =>
    intro a acc c h
    left
    simpa [chapterLoop] using h
  | cons e rest ih =>
    intro a acc c h
    simp only [chapterLoop] at h
    split at h
    · split at h
      · rcases ih _ _ _ h with h1 | ⟨e', he', hx⟩
        · left; exact h1
        · right; exact ⟨e', List.mem_cons_of_mem _ he', hx⟩
      · rcases ih _ _ _ h with h1 | ⟨e', he', hx⟩
        · rcases List.mem_append.mp h1 with h2 | h2
          · left; exact h2
          · right
            refine ⟨e, List.mem_cons_self _ _, ?_⟩
            have : c = ⟨secToHHMM e.start,
                String.mk (pickTitle o.preferSentenceEnds o.titleMaxLen e.text.data)⟩ := by
              simpa using h2
            rw [this]
            exact ⟨rfl, rfl⟩
        · right; exact ⟨e', List.mem_cons_of_mem _ he', hx⟩
    · rcases ih _ _ _ h with h1 | ⟨e', he', hx⟩
      · left; exact h1
      · right; exact ⟨e', List.mem_cons_of_mem _ he', hx⟩

theorem addZeroAnchor_mem (o : ExtractOpts) (entries : List SrtEntry)
    (chapters : List Chapter) (c : Chapter) (h : c ∈ addZeroAnchor o entries chapters) :
    c ∈ chapters ∨ (c.anchor = "00" ∧
      ∃ txt, c.title = String.mk (pickTitle o.preferSentenceEnds o.titleMaxLen txt)) := by
  simp only [addZeroAnchor] at h
  split at h
  · left; exact h
  · rcases List.mem_cons.mp h with h1 | h1
    · right
      rw [h1]
      exact ⟨rfl, _, rfl⟩
    · left; exact h1

theorem dedupLoop_sublist : ∀ (l : List Chapter) (prev : List Char),
    List.Sublist (dedupLoop l prev) l := by
  intro l
  induction l with
  | nil => intro prev; simp [dedupLoop]
  | cons c rest ih =>
    intro prev
    simp only [dedupLoop]
    split_ifs with h
    · exact (ih _).cons₂ c
    · exact (ih _).cons c

theorem extract_mem (o : ExtractOpts) (entries : List SrtEntry) (c : Chapter)
    (h : c ∈ extractChaptersFromSrt o entries) :
    (∃ e ∈ entries, c.anchor = secToHHMM e.start ∧
      c.title = String.mk (pickTitle o.preferSentenceEnds o.titleMaxLen e.text.data)) ∨
    (c.anchor = "00" ∧
      ∃ txt, c.title = String.mk (pickTitle o.preferSentenceEnds o.titleMaxLen txt)) := by
  unfold extractChaptersFromSrt at h
  split at h
  · simp at h
  · have h2 := (dedupLoop_sublist _ _).subset h
    rcases addZeroAnchor_mem o entries _ c h2 with h3 | h3
    · rcases chapterLoop_mem o entries none [] c h3 with h4 | h4
      · simp at h4
      · left; exact h4
    · right; exact h3

theorem chapterLoop_count_le (o : ExtractOpts) (s : String) :
    ∀ (entries : List SrtEntry) (a : Option Int) (acc : List Chapter),
      (acc.filter (fun c => c.anchor = s)).length ≤ 1 →
      ((chapterLoop o entries a acc).filter (fun c => c.anchor = s)).length ≤ 1 := by
  intro entries
  induction entries with
  | nil =>
    intro a acc h
    simpa [chapterLoop] using h
  | cons e rest ih =>
    intro a acc h
    simp only [chapterLoop]
    split
    · split
      · exact ih _ _ h
      · rename_i hgap hdup
        refine ih _ _ ?_
        rw [List.filter_append, List.length_append]
        by_cases hs : secToHHMM e.start = s
        · have hnone : (acc.filter (fun c => c.anchor = s)).length = 0 := by
            rw [List.length_eq_zero, List.filter_eq_nil_iff]
            intro c hc
            simp only [decide_eq_true_eq]
            intro hx
            exact hdup (List.any_eq_true.mpr ⟨c, hc, by simp [hx, hs]⟩)
          have hone : (List.filter (fun c => c.anchor = s)
              [(⟨secToHHMM e.start,
                String.mk (pickTitle o.preferSentenceEnds o.titleMaxLen e.text.data)⟩ :
                  Chapter)]).length ≤ 1 := by
            simp [List.filter]
            split <;> simp
          omega
        · have hz : (List.filter (fun c => c.anchor = s)
              [(⟨secToHHMM e.start,
                String.mk (pickTitle o.preferSentenceEnds o.titleMaxLen e.text.data)⟩ :
                  Chapter)]).length = 0 := by
            simp [List.filter, hs]
          omega
    · exact ih _ _ h

theorem assembled_zero_count (o : ExtractOpts) (entries : List SrtEntry) :
    ((addZeroAnchor o entries (chapterLoop o entries none [])).filter
      (fun c => c.anchor = "00")).length = 1 := by
  have hle := chapterLoop_count_le o "00" entries none [] (by simp)
  simp only [addZeroAnchor]
  split
  · rename_i hany
    obtain ⟨c, hc, hcs⟩ := List.any_eq_true.mp hany
    have hmem : c ∈ (chapterLoop o entries none []).filter (fun c => c.anchor = "00") :=
      List.mem_filter.mpr ⟨hc, hcs⟩
    have : 1 ≤ ((chapterLoop o entries none []).filter (fun c => c.anchor = "00")).length :=
      List.length_pos.mpr (by intro h0; rw [h0] at hmem; simp at hmem)
    omega
  · rename_i hany
    have hnone : ((chapterLoop o entries none []).filter
        (fun c => c.anchor = "00")).length = 0 := by
      rw [List.length_eq_zero, List.filter_eq_nil_iff]
      intro c hc
      simp only [decide_eq_true_eq]
      intro hx
      exact hany (List.any_eq_true.mpr ⟨c, hc, by simp [hx]⟩)
    simp only [List.filter_cons]
    split
    · simp [hnone]
    · rename_i hcond
      simp at hcond

theorem natToCharsAux_all_dig : ∀ (fuel n : Nat), ∀ c ∈ natToCharsAux fuel n, isDig c = true := by
  intro fuel
  induction fuel with
  | zero => intro n c hc; simp [natToCharsAux] at hc
  | succ f ih =>
    intro n c hc
    simp only [natToCharsAux] at hc
    split at hc
    · rename_i hn
      have hc' : c = Char.ofNat (48 + n) := by simpa using hc
      rw [hc', isDig, JsonModel.toNat_ofNat_lt (by omega)]
      simp
      omega
    · rcases List.mem_append.mp hc with h1 | h1
      · exact ih _ c h1
      · have hm : n % 10 < 10 := Nat.mod_lt _ (by omega)
        have hc' : c = Char.ofNat (48 + n % 10) := by simpa using h1
        rw [hc', isDig, JsonModel.toNat_ofNat_lt (by omega)]
        simp
        omega

theorem natToChars_all_dig (n : Nat) : ∀ c ∈ natToChars n, isDig c = true :=
  natToCharsAux_all_dig (n + 1) n

theorem natToChars_length_le_two (n : Nat) (h : n < 100) : (natToChars n).length ≤ 2 := by
  unfold natToChars
  by_cases h1 : n < 10
  · simp [natToCharsAux, h1]
  · obtain ⟨m, rfl⟩ : ∃ m, n = m + 1 := ⟨n - 1, by omega⟩
    rw [natToCharsAux, if_neg (by omega)]
    rw [natToCharsAux, if_pos (by omega)]
    simp

theorem pad2_length_of_le (cs : List Char) (h : cs.length ≤ 2) : (pad2 cs).length = 2 := by
  simp [pad2]
  omega

theorem pad2_length_ge (cs : List Char) : 2 ≤ (pad2 cs).length := by
  simp [pad2]
  omega

theorem pad2_all_dig (cs : List Char) (h : ∀ c ∈ cs, isDig c = true) :
    ∀ c ∈ pad2 cs, isDig c = true := by
  intro c hc
  rcases List.mem_append.mp hc with h1 | h1
  · have : c = '0' := by
      have := List.eq_of_mem_replicate h1
      exact this
    rw [this]
    rfl
  · exact h c h1

theorem fdiv_thousand_nonpos (ms : Int) (h : ms < 0) : Int.fdiv ms 1000 ≤ 0 := by
  match ms, h with
  | Int.negSucc m, _ =>
    have he : Int.fdiv (Int.negSucc m) 1000 = Int.negSucc (m / 1000) := rfl
    rw [he, Int.negSucc_eq]
    omega

theorem anyMapC (l : List AChapter) (p : Chapter → Bool) :
    (l.map AChapter.c).any p = l.any (fun a => p a.c) := by
  induction l with
  | nil => rfl
  | cons a t ih => simp [List.any_cons, ih]

theorem map_id_of_mem {f : Char → Char} : ∀ (l : List Char), (∀ c ∈ l, f c = c) → l.map f = l := by
  intro l
  induction l with
  | nil => intro _; rfl
  | cons a tl ih =>
    intro h
    rw [List.map_cons, h a (List.mem_cons_self a tl),
      ih (fun c hc => h c (List.mem_cons_of_mem a hc))]

theorem if_tail_sublist (b : Prop) [Decidable b] (l : List Char) :
    List.Sublist (if b then l.tail else l) l := by
  split_ifs with h
  · exact List.tail_sublist l
  · exact List.Sublist.refl l

theorem tagEnd_sublist (cs tail : List Char) (h : tagEnd cs = some tail) :
    List.Sublist tail cs := by
  simp only [tagEnd] at h
  split at h
  · rename_i tail' heq
    split at h
    · exact absurd h (by simp)
    · have ht : tail = tail' := by simpa using h.symm
      subst ht
      exact ((List.Sublist.refl tail).cons '>').trans (heq ▸ List.dropWhile_sublist _)
  · exact absurd h (by simp)

theorem stripTagsF_mem : ∀ (fuel : Nat) (cs : List Char) (c : Char),
    c ∈ stripTagsF fuel cs → c ∈ cs ∨ c = ' ' := by
  intro fuel
  induction fuel with
  | zero => intro cs c h; left; simpa [stripTagsF] using h
  | succ f ih =>
    intro cs c h
    cases cs with
    | nil => simp [stripTagsF] at h
    | cons a rest =>
      simp only [stripTagsF] at h
      split at h
      · split at h
        · rename_i ha tail heq
          rcases List.mem_cons.mp h with rfl | h2
          · right; rfl
          · rcases ih _ _ h2 with h3 | h3
            · left
              exact List.mem_cons_of_mem a ((tagEnd_sublist rest tail heq).subset h3)
            · right; exact h3
        · rename_i ha hopt heq
          rcases List.mem_cons.mp h with rfl | h2
          · left; rw [ha]; exact List.mem_cons_self _ _
          · rcases ih _ _ h2 with h3 | h3
            · left; exact List.mem_cons_of_mem a h3
            · right; exact h3
      · rcases List.mem_cons.mp h with rfl | h2
        · left; exact List.mem_cons_self _ _
        · rcases ih _ _ h2 with h3 | h3
          · left; exact List.mem_cons_of_mem a h3
          · right; exact h3

theorem stripTags_mem (cs : List Char) (c : Char) (h : c ∈ stripTags cs) :
    c ∈ cs ∨ c = ' ' := stripTagsF_mem _ _ _ h

theorem assEnd_sublist (cs tail : List Char) (h : assEnd cs = some tail) :
    List.Sublist tail cs := by
  simp only [assEnd] at h
  split at h
  · rename_i tail' heq
    split at h
    · exact absurd h (by simp)
    · have ht : tail = tail' := by simpa using h.symm
      subst ht
      exact ((List.Sublist.refl tail).cons '\x7d').trans (heq ▸ List.dropWhile_sublist _)
  · exact absurd h (by simp)

theorem stripAssF_mem : ∀ (fuel : Nat) (cs : List Char) (c : Char),
    c ∈ stripAssF fuel cs → c ∈ cs ∨ c = ' ' := by
  intro fuel
  induction fuel with
  | zero => intro cs c h; left; simpa [stripAssF] using h
  | succ f ih =>
    intro cs c h
    cases cs with
    | nil => simp [stripAssF] at h
    | cons a rest =>
      simp only [stripAssF] at h
      split at h
      · rename_i ha
        split at h
        · rename_i rest2
          split at h
          · rename_i tail heq
            rcases List.mem_cons.mp h with rfl | h2
            · right; rfl
            · rcases ih _ _ h2 with h3 | h3
              · left
                refine List.mem_cons_of_mem a ?_
                have hsub : List.Sublist tail rest2 := assEnd_sublist rest2 tail heq
                exact ((hsub.cons '\\').subset) h3
              · right; exact h3
          · rcases List.mem_cons.mp h with rfl | h2
            · left; rw [ha]; exact List.mem_cons_self _ _
            · rcases ih _ _ h2 with h3 | h3
              · left; exact List.mem_cons_of_mem a h3
              · right; exact h3
        · rcases List.mem_cons.mp h with rfl | h2
          · left; rw [ha]; exact List.mem_cons_self _ _
          · rcases ih _ _ h2 with h3 | h3
            · left; exact List.mem_cons_of_mem a h3
            · right; exact h3
      · rcases List.mem_cons.mp h with rfl | h2
        · left; exact List.mem_cons_self _ _
        · rcases ih _ _ h2 with h3 | h3
          · left; exact List.mem_cons_of_mem a h3
          · right; exact h3

theorem stripAss_mem (cs : List Char) (c : Char) (h : c ∈ stripAss cs) :
    c ∈ cs ∨ c = ' ' := stripAssF_mem _ _ _ h

theorem stripLabel_sublist (cs : List Char) : List.Sublist (stripLabel cs) cs := by
  cases hA : (if cs.head? = some '[' || cs.head? = some '(' then cs.tail else cs) with
  | nil =>
    simp only [stripLabel, hA]
    exact List.Sublist.refl cs
  | cons c rest =>
    have hrest : List.Sublist rest cs :=
      ((List.Sublist.refl rest).cons c).trans (hA ▸ if_tail_sublist _ cs)
    simp only [stripLabel, hA]
    split_ifs <;> try exact List.Sublist.refl cs
    all_goals (split <;> try exact List.Sublist.refl cs)
    all_goals (split <;> try exact List.Sublist.refl cs)
    all_goals (split_ifs <;> try exact List.Sublist.refl cs)
    all_goals rename_i w tl heq hw
    all_goals (
      have h5 : List.Sublist (':' :: w :: tl) (rest.dropWhile labelClass) := by
        first
          | (rw [← heq]; exact List.tail_sublist _)
          | (rw [← heq])
          | (rw [← heq]; exact List.Sublist.refl _)
      have h6 : List.Sublist ((w :: tl).dropWhile isJsWs) (w :: tl) :=
        List.dropWhile_sublist _
      have h7 : List.Sublist (w :: tl) (':' :: w :: tl) := (List.Sublist.refl _).cons ':'
      have h8 : List.Sublist (rest.dropWhile labelClass) rest := List.dropWhile_sublist _
      exact (((h6.trans h7).trans h5).trans h8).trans hrest)

theorem tryCue_sublist (cs rest : List Char) (h : tryCue cs = some rest) :
    List.Sublist rest cs := by
  simp only [tryCue] at h
  set A := if cs.head? = some '[' || cs.head? = some '(' then cs.tail else cs with hA
  set B := if A.head? = some '\u266a' || A.head? = some '*' then A.tail else A with hB
  set C := B.dropWhile cueClass with hC
  set D := if C.head? = some '\u266a' || C.head? = some '*' then C.tail else C with hD
  have hDcs : List.Sublist D cs := by
    have h1 : List.Sublist A cs := by rw [hA]; exact if_tail_sublist _ _
    have h2 : List.Sublist B A := by rw [hB]; exact if_tail_sublist _ _
    have h3 : List.Sublist C B := by rw [hC]; exact List.dropWhile_sublist _
    have h4 : List.Sublist D C := by rw [hD]; exact if_tail_sublist _ _
    exact ((h4.trans h3).trans h2).trans h1
  clear_value D
  split at h
  · split at h
    · rename_i r
      have hrr : rest = r := by simpa using h.symm
      subst hrr
      exact ((List.Sublist.refl _).cons _).trans hDcs
    · rename_i r
      have hrr : rest = r := by simpa using h.symm
      subst hrr
      exact ((List.Sublist.refl _).cons _).trans hDcs
    · exact absurd h (by simp)
  · exact absurd h (by simp)

theorem stripCuesF_mem : ∀ (fuel : Nat) (cs : List Char) (c : Char),
    c ∈ stripCuesF fuel cs → c ∈ cs ∨ c = ' ' := by
  intro fuel
  induction fuel with
  | zero => intro cs c h; left; simpa [stripCuesF] using h
  | succ f ih =>
    intro cs c h
    cases cs with
    | nil => simp [stripCuesF] at h
    | cons a rest =>
      simp only [stripCuesF] at h
      split at h
      · rename_i rest' heq
        rcases List.mem_cons.mp h with rfl | h2
        · right; rfl
        · rcases ih _ _ h2 with h3 | h3
          · left; exact (tryCue_sublist _ _ heq).subset h3
          · right; exact h3
      · rcases List.mem_cons.mp h with rfl | h2
        · left; exact List.mem_cons_self _ _
        · rcases ih _ _ h2 with h3 | h3
          · left; exact List.mem_cons_of_mem a h3
          · right; exact h3

theorem stripCues_mem (cs : List Char) (c : Char) (h : c ∈ stripCues cs) :
    c ∈ cs ∨ c = ' ' := stripCuesF_mem _ _ _ h

theorem collapseWs_mem : ∀ (l : List Char) (b : Bool) (c : Char),
    c ∈ collapseWsAux b l → c ∈ l ∨ c = ' ' := by
  intro l
  induction l with
  | nil => intro b c h; simp [collapseWsAux] at h
  | cons a rest ih =>
    intro b c h
    simp only [collapseWsAux] at h
    split at h
    · split at h
      · rcases ih _ _ h with h3 | h3
        · left; exact List.mem_cons_of_mem a h3
        · right; exact h3
      · rcases List.mem_cons.mp h with rfl | h2
        · right; rfl
        · rcases ih _ _ h2 with h3 | h3
          · left; exact List.mem_cons_of_mem a h3
          · right; exact h3
    · rcases List.mem_cons.mp h with rfl | h2
      · left; exact List.mem_cons_self _ _
      · rcases ih _ _ h2 with h3 | h3
        · left; exact List.mem_cons_of_mem a h3
        · right; exact h3

theorem collapseWs_ws_space : ∀ (l : List Char) (b : Bool) (c : Char),
    c ∈ collapseWsAux b l → isJsWs c = true → c = ' ' := by
  intro l
  induction l with
  | nil => intro b c h; simp [collapseWsAux] at h
  | cons a rest ih =>
    intro b c h hws
    simp only [collapseWsAux] at h
    split at h
    · split at h
      · exact ih _ _ h hws
      · rcases List.mem_cons.mp h with rfl | h2
        · rfl
        · exact ih _ _ h2 hws
    · rename_i hna
      rcases List.mem_cons.mp h with rfl | h2
      · exact absurd hws (by simpa using hna)
      · exact ih _ _ h2 hws

theorem collapse_true_head : ∀ (l : List Char) (c : Char),
    (collapseWsAux true l).head? = some c → isJsWs c = false := by
  intro l
  induction l with
  | nil => intro c h; simp [collapseWsAux] at h
  | cons a rest ih =>
    intro c h
    simp only [collapseWsAux] at h
    split at h
    · exact ih c h
    · rename_i hna
      have : a = c := by simpa using h
      subst this
      simpa using hna

theorem collapse_chain : ∀ (l : List Char) (b : Bool),
    List.Chain' (fun x y => ¬(isJsWs x = true ∧ isJsWs y = true)) (collapseWsAux b l) := by
  intro l
  induction l with
  | nil => intro b; simp [collapseWsAux]
  | cons a rest ih =>
    intro b
    simp only [collapseWsAux]
    split
    · split
      · exact ih true
      · rw [List.chain'_cons']
        refine ⟨?_, ih true⟩
        intro y hy
        have hyw := collapse_true_head rest y hy
        intro hcon
        rw [hcon.2] at hyw
        simp at hyw
    · rename_i hna
      rw [List.chain'_cons']
      refine ⟨?_, ih false⟩
      intro y _
      intro hcon
      rw [hcon.1] at hna
      simp at hna

theorem collapse_eq_self : ∀ (l : List Char),
    (∀ c ∈ l, isJsWs c = true → c = ' ') →
    List.Chain' (fun x y => ¬(isJsWs x = true ∧ isJsWs y = true)) l →
    collapseWsAux false l = l := by
  intro l
  induction l with
  | nil => intro _ _; rfl
  | cons a rest ih =>
    intro hsp hch
    by_cases hws : isJsWs a = true
    · have ha : a = ' ' := hsp a (List.mem_cons_self _ _) hws
      have hrest : collapseWsAux false rest = rest :=
        ih (fun c hc => hsp c (List.mem_cons_of_mem a hc)) hch.tail
      have htr : collapseWsAux true rest = rest := by
        cases rest with
        | nil => rfl
        | cons d rest' =>
          have hd : isJsWs d = false := by
            have hrel := (List.chain'_cons.mp hch).1
            by_contra hdd
            exact hrel ⟨hws, by simpa using hdd⟩
          have h1 : collapseWsAux true (d :: rest') = d :: collapseWsAux false rest' := by
            simp [collapseWsAux, hd]
          have h2 : collapseWsAux false (d :: rest') = d :: collapseWsAux false rest' := by
            simp [collapseWsAux, hd]
          rw [h1, ← h2, hrest]
      subst ha
      have h32 : isJsWs ' ' = true := rfl
      simp only [collapseWsAux, h32, if_true, Bool.false_eq_true, if_false]
      rw [htr]
    · have hrest : collapseWsAux false rest = rest :=
        ih (fun c hc => hsp c (List.mem_cons_of_mem a hc)) hch.tail
      simp only [collapseWsAux, hws]
      rw [hrest]
      simp

theorem jsTrim_isPre (l : List Char) :
    List.IsPrefix (jsTrim l) (l.dropWhile isJsWs) := by
  rw [← List.reverse_suffix]
  unfold jsTrim
  rw [List.reverse_reverse]
  exact List.dropWhile_suffix _

theorem jsTrim_isInf (l : List Char) : List.IsInfix (jsTrim l) l :=
  (jsTrim_isPre l).isInfix.trans (List.dropWhile_suffix isJsWs).isInfix

theorem jsTrim_head_not_ws (l : List Char) (c : Char) (h : (jsTrim l).head? = some c) :
    isJsWs c = false := by
  cases hjt : jsTrim l with
  | nil => rw [hjt] at h; simp at h
  | cons a t =>
    rw [hjt] at h
    have hac : a = c := by simpa using h
    subst hac
    obtain ⟨s, hs⟩ := jsTrim_isPre l
    rw [hjt] at hs
    have hhead : (l.dropWhile isJsWs).head? = some a := by
      rw [← hs]
      rfl
    have := List.head?_dropWhile_not isJsWs l
    rw [hhead] at this
    simpa using this

theorem jsTrim_getLast_not_ws (l : List Char) (c : Char)
    (h : (jsTrim l).getLast? = some c) : isJsWs c = false := by
  unfold jsTrim at h
  rw [List.getLast?_reverse] at h
  have := List.head?_dropWhile_not isJsWs (l.dropWhile isJsWs).reverse
  rw [h] at this
  simpa using this

theorem jsTrim_eq_self (l : List Char)
    (hh : ∀ c, l.head? = some c → isJsWs c = false)
    (hl : ∀ c, l.getLast? = some c → isJsWs c = false) : jsTrim l = l := by
  have h1 : l.dropWhile isJsWs = l := by
    cases l with
    | nil => rfl
    | cons a t =>
      rw [List.dropWhile_cons, if_neg]
      rw [hh a rfl]
      simp
  unfold jsTrim
  rw [h1]
  have h2 : l.reverse.dropWhile isJsWs = l.reverse := by
    cases hr : l.reverse with
    | nil => rfl
    | cons a t =>
      rw [List.dropWhile_cons, if_neg]
      have hga : l.getLast? = some a := by
        rw [← List.head?_reverse, hr]
        rfl
      rw [hl a hga]
      simp
  rw [h2, List.reverse_reverse]

theorem normalizeChar_cases (d : Char) :
    normalizeChar d = '"' ∨ normalizeChar d = '\'' ∨ normalizeChar d = '-' ∨
      normalizeChar d = d := by
  unfold normalizeChar
  split_ifs <;> simp

theorem normalizeChar_idem (d : Char) :
    normalizeChar (normalizeChar d) = normalizeChar d := by
  rcases normalizeChar_cases d with h | h | h | h
  · rw [h]; rfl
  · rw [h]; rfl
  · rw [h]; rfl
  · rw [h]; exact h

theorem cleanLine_chars (s : List Char) :
    ∀ c ∈ cleanLineL s, c.toNat ≠ 0xfeff ∧ ¬ (c.toNat ≤ 0x1f) ∧ normalizeChar c = c := by
  intro c hc
  simp only [cleanLineL] at hc
  split at hc
  · simp at hc
  · have h8 := (jsTrim_sublist _).subset hc
    rcases collapseWs_mem _ _ _ h8 with h7 | rfl
    · rcases List.mem_map.mp h7 with ⟨d, hd, rfl⟩
      have hP2 : d.toNat ≠ 0xfeff ∧ ¬ (d.toNat ≤ 0x1f) := by
        rcases stripCues_mem _ _ hd with h5 | rfl
        · have h4 := (stripLabel_sublist _).subset h5
          rcases stripAss_mem _ _ h4 with h3 | rfl
          · rcases stripTags_mem _ _ h3 with h2 | rfl
            · rcases List.mem_map.mp h2 with ⟨x, hx, rfl⟩
              by_cases hctrl : x.toNat ≤ 0x1f
              · rw [if_pos hctrl]
                exact ⟨by decide, by decide⟩
              · rw [if_neg hctrl]
                refine ⟨?_, hctrl⟩
                have hxf := (List.mem_filter.mp hx).2
                simpa using hxf
            · exact ⟨by decide, by decide⟩
          · exact ⟨by decide, by decide⟩
        · exact ⟨by decide, by decide⟩
      refine ⟨?_, ?_, normalizeChar_idem d⟩
      · rcases normalizeChar_cases d with h | h | h | h
        · rw [h]; decide
        · rw [h]; decide
        · rw [h]; decide
        · rw [h]; exact hP2.1
      · rcases normalizeChar_cases d with h | h | h | h
        · rw [h]; decide
        · rw [h]; decide
        · rw [h]; decide
        · rw [h]; exact hP2.2
    · exact ⟨by decide, by decide, rfl⟩

theorem cleanLineL_fixed (s : List Char) :
    collapseWsAux false (cleanLineL s) = cleanLineL s ∧ jsTrim (cleanLineL s) = cleanLineL s := by
  simp only [cleanLineL]
  split
  · exact ⟨rfl, rfl⟩
  · constructor
    · apply collapse_eq_self
      · intro c hc hws
        exact collapseWs_ws_space _ _ _ ((jsTrim_sublist _).subset hc) hws
      · exact List.Chain'.infix (collapse_chain _ _) (jsTrim_isInf _)
    · apply jsTrim_eq_self
      · intro c hcc
        exact jsTrim_head_not_ws _ c hcc
      · intro c hcc
        exact jsTrim_getLast_not_ws _ c hcc

theorem cleanLineL_not_punct (s : List Char) :
    ¬ (cleanLineL s ≠ [] ∧ (cleanLineL s).all isPunctChar = true) := by
  simp only [cleanLineL]
  split
  · intro hcon
    exact hcon.1 rfl
  · rename_i h
    exact h

theorem chapterLoopA_map (o : ExtractOpts) :
    ∀ (entries : List SrtEntry) (a : Option Int) (acc : List AChapter),
      chapterLoop o entries a (acc.map AChapter.c) = (chapterLoopA o entries a acc).map AChapter.c := by
  intro entries
  induction entries with
  | nil => intro a acc; simp [chapterLoop, chapterLoopA]
  | cons e rest ih =>
    intro a acc
    simp only [chapterLoop, chapterLoopA, anyMapC]
    split_ifs with h1 h2
    · exact ih _ _
    · have h3 := ih (some e.start)
        (acc ++ [⟨⟨secToHHMM e.start,
          String.mk (pickTitle o.preferSentenceEnds o.titleMaxLen e.text.data)⟩, some e⟩])
      simpa using h3
    · exact ih _ _

theorem addZeroAnchorA_map (o : ExtractOpts) (entries : List SrtEntry) (acc : List AChapter) :
    addZeroAnchor o entries (acc.map AChapter.c) = (addZeroAnchorA o entries acc).map AChapter.c := by
  simp only [addZeroAnchor, addZeroAnchorA, anyMapC]
  split_ifs with h
  · rfl
  · simp

theorem dedupLoopA_map : ∀ (l : List AChapter) (prev : List Char),
    dedupLoop (l.map AChapter.c) prev = (dedupLoopA l prev).map AChapter.c := by
  intro l
  induction l with
  | nil => intro prev; rfl
  | cons c rest ih =>
    intro prev
    simp only [List.map_cons, dedupLoop, dedupLoopA]
    split_ifs with h
    · rw [List.map_cons, ih]
    · exact ih _

theorem extract_erasure (o : ExtractOpts) (entries : List SrtEntry) :
    extractChaptersFromSrt o entries = (extractChaptersA o entries).map AChapter.c := by
  unfold extractChaptersFromSrt extractChaptersA
  split
  · rfl
  · have h1 := chapterLoopA_map o entries none []
    simp only [List.map_nil] at h1
    rw [h1, addZeroAnchorA_map, dedupLoopA_map]

/-- The start times of the entries the real (non-fallback) chapters were
    derived from, in list order. -/
def realStarts (l : List AChapter) : List Int :=
  l.filterMap (fun a => a.src.map SrtEntry.start)

theorem dedupLoopA_sublist : ∀ (l : List AChapter) (prev : List Char),
    List.Sublist (dedupLoopA l prev) l := by
  intro l
  induction l with
  | nil => intro prev; simp [dedupLoopA]
  | cons c rest ih =>
    intro prev
    simp only [dedupLoopA]
    split_ifs with h
    · exact (ih _).cons₂ c
    · exact (ih _).cons c

theorem chapterLoopA_contentful (o : ExtractOpts) :
    ∀ (entries : List SrtEntry) (a : Option Int) (acc : List AChapter),
      (∀ x ∈ acc, ∀ e, x.src = some e →
        e.text.data.any isWordChar = true ∧ 18 ≤ e.text.length) →
      ∀ x ∈ chapterLoopA o entries a acc, ∀ e, x.src = some e →
        e.text.data.any isWordChar = true ∧ 18 ≤ e.text.length := by
  intro entries
  induction entries with
  | nil =>
    intro a acc hacc x hx
    simp only [chapterLoopA] at hx
    exact hacc x hx
  | cons e rest ih =>
    intro a acc hacc x hx
    simp only [chapterLoopA] at hx
    split at hx
    · split at hx
      · exact ih _ _ hacc x hx
      · rename_i h1 h2
        refine ih _ _ ?_ x hx
        intro y hy e' he'
        rcases List.mem_append.mp hy with hy1 | hy1
        · exact hacc y hy1 e' he'
        · have hyx : y = ⟨⟨secToHHMM e.start,
              String.mk (pickTitle o.preferSentenceEnds o.titleMaxLen e.text.data)⟩, some e⟩ := by
            simpa using hy1
          rw [hyx] at he'
          have hee : e = e' := by simpa using he'
          subst hee
          rw [Bool.and_eq_true, Bool.and_eq_true] at h1
          exact ⟨h1.2.1, of_decide_eq_true h1.2.2⟩
    · exact ih _ _ hacc x hx

theorem chapterLoopA_chain (o : ExtractOpts) :
    ∀ (entries : List SrtEntry) (a : Option Int) (acc : List AChapter),
      List.Chain' (fun x y => o.minGapSec ≤ y - x) (realStarts acc) →
      ((a = none ∧ realStarts acc = []) ∨
        (∃ s, a = some s ∧ (realStarts acc).getLast? = some s)) →
      List.Chain' (fun x y => o.minGapSec ≤ y - x) (realStarts (chapterLoopA o entries a acc)) := by
  intro entries
  induction entries with
  | nil =>
    intro a acc hchain _
    simpa [chapterLoopA] using hchain
  | cons e rest ih =>
    intro a acc hchain hinv
    simp only [chapterLoopA]
    split
    · split
      · exact ih _ _ hchain hinv
      · rename_i h1 h2
        have hrs : realStarts (acc ++ [⟨⟨secToHHMM e.start,
            String.mk (pickTitle o.preferSentenceEnds o.titleMaxLen e.text.data)⟩, some e⟩]) =
            realStarts acc ++ [e.start] := by
          simp [realStarts]
        refine ih _ _ ?_ ?_
        · rw [hrs]
          rw [List.chain'_append]
          refine ⟨hchain, List.chain'_singleton _, ?_⟩
          intro x hx y hy
          have hyx : y = e.start := Eq.symm (by simpa using hy)
          subst hyx
          rcases hinv with ⟨ha, hnil⟩ | ⟨s, ha, hlast⟩
          · rw [hnil] at hx
            simp at hx
          · rw [hlast] at hx
            have hxs : x = s := Eq.symm (by simpa using hx)
            subst hxs
            subst ha
            rw [Bool.and_eq_true] at h1
            exact of_decide_eq_true h1.1
        · right
          refine ⟨e.start, rfl, ?_⟩
          rw [hrs]
          exact List.getLast?_concat _
    · exact ih _ _ hchain hinv

theorem addZeroAnchorA_mem (o : ExtractOpts) (entries : List SrtEntry)
    (chapters : List AChapter) (c : AChapter) (h : c ∈ addZeroAnchorA o entries chapters) :
    c ∈ chapters ∨ c.src = none := by
  simp only [addZeroAnchorA] at h
  split at h
  · left; exact h
  · rcases List.mem_cons.mp h with h1 | h1
    · right; rw [h1]
    · left; exact h1

theorem extractA_pairwise (o : ExtractOpts) (entries : List SrtEntry) (hg : 0 ≤ o.minGapSec) :
    List.Pairwise (fun x y => o.minGapSec ≤ y - x) (realStarts (extractChaptersA o entries)) := by
  unfold extractChaptersA
  split
  · simp [realStarts]
  · have hchain := chapterLoopA_chain o entries none [] (by simp [realStarts])
      (Or.inl ⟨rfl, rfl⟩)
    have haz : realStarts (addZeroAnchorA o entries (chapterLoopA o entries none [])) =
        realStarts (chapterLoopA o entries none []) := by
      simp only [addZeroAnchorA]
      split
      · rfl
      · simp [realStarts]
    have hchain2 : List.Chain' (fun x y => o.minGapSec ≤ y - x)
        (realStarts (addZeroAnchorA o entries (chapterLoopA o entries none []))) := by
      rw [haz]
      exact hchain
    haveI : IsTrans Int (fun x y => o.minGapSec ≤ y - x) := by
      constructor
      intro a b c hab hbc
      have hab' : o.minGapSec ≤ b - a := hab
      have hbc' : o.minGapSec ≤ c - b := hbc
      show o.minGapSec ≤ c - a
      omega
    have hpw := List.chain'_iff_pairwise.mp hchain2
    exact hpw.sublist ((dedupLoopA_sublist _ _).filterMap _)

theorem dedupLoop_characterization : ∀ (l : List Chapter) (prev : List Char),
    dedupLoop l prev =
      (l.zip (prev :: l.map (fun c => normKey c.title.data))).filterMap
        (fun p => if normKey p.1.title.data ≠ [] ∧ normKey p.1.title.data ≠ p.2
                  then some p.1 else none) := by
  intro l
  induction l with
  | nil => intro prev; rfl
  | cons c rest ih =>
    intro prev
    simp only [dedupLoop, List.map_cons, List.zip_cons_cons, List.filterMap_cons]
    split_ifs with h
    · exact congrArg (List.cons c) (ih _)
    · exact ih _

end Srt

section Claims

open JsonModel

/-- C1: Save/load round trip of the persistence envelope.  For every
    projected application state (an arbitrary field list, with the version
    field written by the save path itself in the first implementation and
    by the envelope in the second) and every checksum function, an
    immediately following load returns exactly the saved data object, the
    store keeps the saved payload, no migration runs, in both parallel
    implementations (loadPersistedState with the checksum over the data
    alone, persistLoad with the checksum over the version-data object). -/
theorem save_load_roundtrip (hash : String → String)
    (fields data : List (String × Json))
    (hver : "version" ∉ fields.map Prod.fst) :
    Persist.loadPersistedState hash
        (Persist.savePersistedState hash (Persist.buildCore fields))
      = (some (Persist.buildCore fields),
         Persist.savePersistedState hash (Persist.buildCore fields)) ∧
    Store.persistLoad hash (Store.persistSave hash (.obj data))
      = (some (.obj data), Store.persistSave hash (.obj data)) := by
  constructor
  · rw [Persist.savePersistedState, Persist.loadPersistedState]
    simp [parse_stringify, Persist.buildPersistSnapshot, Persist.buildCore,
      lookupLast, jsTruthy, Persist.versionOk, getField,
      lookupLast_notin fields "version" hver, calculateChecksum, Persist.SESSION_VERSION]
  · rw [Store.persistSave, Store.persistLoad]
    simp [parse_stringify, Store.versionData, Store.versionOk,
      lookupLast, jsTruthy, calculateChecksum, Store.SESSION_VERSION]

/-- Witness for C1 at a concrete state and the identity digest. -/
theorem save_load_roundtrip_witness :
    ("version" ∉ ([("topic", Json.str "cats")] : List (String × Json)).map Prod.fst) ∧
    (Persist.loadPersistedState id
        (Persist.savePersistedState id (Persist.buildCore [("topic", Json.str "cats")]))
      = (some (Persist.buildCore [("topic", Json.str "cats")]),
         Persist.savePersistedState id (Persist.buildCore [("topic", Json.str "cats")])) ∧
     Store.persistLoad id (Store.persistSave id (.obj [("topic", Json.str "cats")]))
      = (some (.obj [("topic", Json.str "cats")]),
         Store.persistSave id (.obj [("topic", Json.str "cats")]))) :=
  ⟨by decide,
   save_load_roundtrip id [("topic", Json.str "cats")] [("topic", Json.str "cats")]
     (by decide)⟩

/-- Replacement of the character at one index of a string. -/
def setChar (s : String) (i : Nat) (c : Char) : String := String.mk (s.data.set i c)

/-- A projected core whose topic contains the control character U+000B;
    its serialization contains the escape backslash-u000b inside the data
    portion of the envelope. -/
def tamperCore : Json := Persist.buildCore [("topic", Json.str "\x0B")]

/-- The stored envelope string for tamperCore under the identity digest. -/
def tamperSaved : String := Json.stringify (Persist.buildPersistSnapshot id tamperCore)

/-- The stored string with the hex digit of the data portion's unicode
    escape flipped from lowercase b to uppercase B (index 41). -/
def tampered : String := setChar tamperSaved 41 'B'

/-- C2 counterexample: replacing a single character inside the serialized
    data portion does not always make load return null and clear the key.
    Changing the case of the hex digit in the backslash-u000b escape of the
    data yields a different stored string that still parses to the same
    envelope, so the checksum verifies and load returns the saved data with
    the key left in place. -/
theorem checksum_tamper_counterexample :
    tamperSaved.data.get? 41 = some 'b' ∧
    tampered ≠ tamperSaved ∧
    Persist.loadPersistedState id (some tampered) = (some tamperCore, some tampered) := by
  refine ⟨by decide, by decide, ?_⟩
  rfl

/-- C2 amended: a tampered stored string either fails to parse, in which
    case both loaders return null and clear the key; or parses to the very
    envelope that was saved (possible for a single-character change, e.g. a
    hex-digit case flip inside a unicode escape), in which case load
    succeeds and returns the saved data; or parses to an envelope whose
    stored checksum differs from the recomputed one, in which case both
    loaders return null and clear the key. -/
theorem checksum_tamper_amended (hash : String → String)
    (fields data : List (String × Json)) (t : String)
    (hver : "version" ∉ fields.map Prod.fst) :
    (Json.parse t = none →
      Persist.loadPersistedState hash (some t) = (none, none) ∧
      Store.persistLoad hash (some t) = (none, none)) ∧
    (Json.parse t =
        Json.parse (Json.stringify (Persist.buildPersistSnapshot hash
          (Persist.buildCore fields))) →
      Persist.loadPersistedState hash (some t)
        = (some (Persist.buildCore fields), some t)) ∧
    (∀ s, Store.persistSave hash (.obj data) = some s → Json.parse t = Json.parse s →
      Store.persistLoad hash (some t) = (some (.obj data), some t)) ∧
    (∀ (gs : List (String × Json)) (d : Json) (c : String),
      Json.parse t = some (.obj gs) →
      lookupLast gs "data" = some d →
      lookupLast gs "checksum" = some (.str c) →
      c ≠ calculateChecksum hash d →
      Persist.loadPersistedState hash (some t) = (none, none)) ∧
    (∀ (gs : List (String × Json)) (d : Json) (c : String),
      Json.parse t = some (.obj gs) →
      lookupLast gs "data" = some d →
      lookupLast gs "checksum" = some (.str c) →
      c ≠ calculateChecksum hash (Store.versionData (lookupLast gs "version") d) →
      Store.persistLoad hash (some t) = (none, none)) := by
  refine ⟨?_, ?_, ?_, ?_, ?_⟩
  · intro hp
    constructor
    · rw [Persist.loadPersistedState]
      simp [hp]
    · rw [Store.persistLoad]
      simp [hp]
  · intro hp
    rw [Persist.loadPersistedState]
    rw [hp, parse_stringify]
    simp [Persist.buildPersistSnapshot, Persist.buildCore, lookupLast, jsTruthy,
      Persist.versionOk, getField, lookupLast_notin fields "version" hver,
      calculateChecksum, Persist.SESSION_VERSION]
  · intro s hs hp
    rw [Store.persistSave] at hs
    obtain rfl : Json.stringify (.obj [
        ("version", .str Store.SESSION_VERSION),
        ("data", .obj data),
        ("checksum", .str (calculateChecksum hash
          (Store.versionData (some (.str Store.SESSION_VERSION)) (.obj data))))]) = s :=
      Option.some.inj hs
    rw [Store.persistLoad]
    rw [hp, parse_stringify]
    simp [Store.versionData, Store.versionOk, lookupLast, jsTruthy,
      calculateChecksum, Store.SESSION_VERSION]
  · intro gs d c h1 h2 h3 h4
    rw [Persist.loadPersistedState]
    by_cases ht : jsTruthy d = false
    · simp [h1, h2, ht]
    · have ht' : jsTruthy d = true := by
        cases hjt : jsTruthy d
        · exact absurd hjt ht
        · rfl
      simp [h1, h2, h3, h4, ht']
  · intro gs d c h1 h2 h3 h4
    rw [Store.persistLoad]
    by_cases ht : jsTruthy d = false
    · simp [h1, h2, ht]
    · have ht' : jsTruthy d = true := by
        cases hjt : jsTruthy d
        · exact absurd hjt ht
        · rfl
      simp [h1, h2, h3, h4, ht']

/-- Witness for C2 amended: a stored string that no longer parses makes
    both loaders return null and clear the key. -/
theorem checksum_tamper_amended_witness :
    Json.parse "!" = none ∧
    Persist.loadPersistedState id (some "!") = (none, none) ∧
    Store.persistLoad id (some "!") = (none, none) :=
  ⟨rfl, ((checksum_tamper_amended id [] [] "!" (by decide)).1 rfl).1,
   ((checksum_tamper_amended id [] [] "!" (by decide)).1 rfl).2⟩

/-- C6 counterexample: migration is not failure-free in the second
    implementation.  migrateSession applied to an object that lacks a
    version key returns null, not an object, so the claim that migration
    never fails on any input object is false on the code. -/
theorem migrateSession_none_on_missing_version :
    Store.migrateSession (.obj []) = none := rfl

/-- C6 amended: migrateState (first implementation) always returns an
    object; migrateSession (second implementation) succeeds exactly on
    envelope objects carrying a truthy string version, and fails (returns
    null) otherwise.  In both implementations every key present in the
    incoming data keeps its value, keys outside the fixed migration list
    are never added, and each migration-list key that is absent from the
    input is added with its documented default value. -/
theorem migration_frame :
    (∀ d : Json, ∃ m, Persist.migrateState d = Json.obj m) ∧
    (∀ (d : List (String × Json)) (k : String),
      (hasKey d k = true →
        getField (Persist.migrateState (.obj d)) k = lookupLast d k) ∧
      (hasKey d k = false → k ∉ Persist.migDefaults.map Prod.fst →
        getField (Persist.migrateState (.obj d)) k = none) ∧
      (∀ v, (k, v) ∈ Persist.migDefaults → hasKey d k = false →
        getField (Persist.migrateState (.obj d)) k = some v)) ∧
    (∀ (fs d : List (String × Json)) (ver : String), ver ≠ "" →
      lookupLast fs "version" = some (.str ver) →
      lookupLast fs "data" = some (.obj d) →
      Store.migrateSession (.obj fs) = some (Store.migrateData d)) ∧
    (∀ (d : List (String × Json)) (k : String),
      (hasKey d k = true →
        getField (Store.migrateData d) k = lookupLast d k) ∧
      (hasKey d k = false → k ∉ Store.migDefaults.map Prod.fst →
        getField (Store.migrateData d) k = none) ∧
      (∀ v, (k, v) ∈ Store.migDefaults → hasKey d k = false →
        getField (Store.migrateData d) k = some v)) := by
  refine ⟨fun d => ⟨_, rfl⟩, ?_, ?_, ?_⟩
  · intro d k
    refine ⟨?_, ?_, ?_⟩
    · intro h
      rw [Persist.migrateState_eq]
      exact (applyDefaults_preserve Persist.migDefaults d k h).1
    · intro h hk
      rw [Persist.migrateState_eq]
      exact (applyDefaults_absent Persist.migDefaults d k h hk).1
    · intro v hv h
      rw [Persist.migrateState_eq]
      exact applyDefaults_add Persist.migDefaults d k v (by decide) hv h
  · intro fs d ver hver h1 h2
    simp [Store.migrateSession, h1, h2, hver, jsSpread]
  · intro d k
    refine ⟨?_, ?_, ?_⟩
    · intro h
      rw [Store.migrateData_eq]
      exact (applyDefaults_preserve Store.migDefaults d k h).1
    · intro h hk
      rw [Store.migrateData_eq]
      exact (applyDefaults_absent Store.migDefaults d k h hk).1
    · intro v hv h
      rw [Store.migrateData_eq]
      exact applyDefaults_add Store.migDefaults d k v (by decide) hv h

/-- Witness for C6 at concrete inputs. -/
theorem migration_frame_witness :
    (hasKey ([("topic", Json.str "x")]) "topic" = true ∧
     getField (Persist.migrateState (.obj [("topic", Json.str "x")])) "topic"
       = lookupLast [("topic", Json.str "x")] "topic") ∧
    (("1.0.0" : String) ≠ "" ∧
     Store.migrateSession (.obj [("version", Json.str "1.0.0"), ("data", Json.obj [])])
       = some (Store.migrateData [])) :=
  ⟨⟨by decide, (migration_frame.2.1 [("topic", Json.str "x")] "topic").1 (by decide)⟩,
   ⟨by decide,
    migration_frame.2.2.1 [("version", Json.str "1.0.0"), ("data", Json.obj [])] []
      "1.0.0" (by decide) rfl rfl⟩⟩

/-- C5 (counterexample): on the spec's six-line document, parseSrt does
    not return the claimed entries: the first cue's text keeps a space
    before the comma, because the removed HTML tag is replaced by a
    space, which the whitespace collapse then reduces to a single space
    but does not delete.  Times are on the model's millisecond scale
    (1.0 s = 1000). -/
theorem srt_scenario_counterexample :
    Srt.parseSrt "1\n00:00:01,000 --> 00:00:03,500\nHello <b>there</b>, friend!\n\n00:00:05,200 --> 00:00:07,000\n[music] This is a test." ≠
      [⟨1, 1000, 3500, "Hello there, friend!"⟩, ⟨2, 5200, 7000, "This is a test."⟩] := by
  decide

/-- C5 (amended): the exact output of parseSrt on the spec's document:
    two entries, the first with text "Hello there , friend!" (a space
    before the comma), the second with positionally assigned index 2. -/
theorem srt_scenario_amended :
    Srt.parseSrt "1\n00:00:01,000 --> 00:00:03,500\nHello <b>there</b>, friend!\n\n00:00:05,200 --> 00:00:07,000\n[music] This is a test." =
      [⟨1, 1000, 3500, "Hello there , friend!"⟩, ⟨2, 5200, 7000, "This is a test."⟩] := by
  decide

/-- C3 (counterexample): a non-empty entries array on which the extractor
    returns the empty list, with no "00" chapter at all: the single
    contentful entry produces the assembled chapter (at "00", title "-"),
    whose normalization key is empty, so the dedup pass drops it. -/
theorem zero_anchor_counterexample :
    Srt.extractChaptersFromSrt Srt.defaultOpts [⟨1, 0, 1000, "- . abcdefghijklmnop"⟩] = [] ∧
    ([⟨1, 0, 1000, "- . abcdefghijklmnop"⟩] : List Srt.SrtEntry) ≠ [] := by
  decide

/-- C3 (amended): the assembled chapter list before the dedup pass always
    contains exactly one chapter anchored at "00"; the final output
    contains at most one such chapter, but can contain none (the
    counterexample), because the dedup pass can drop it; and the
    extractor's output is exactly the dedup of the assembled list. -/
theorem zero_anchor_amended :
    (∀ (o : Srt.ExtractOpts) (entries : List Srt.SrtEntry),
      ((Srt.addZeroAnchor o entries (Srt.chapterLoop o entries none [])).filter
        (fun c => c.anchor = "00")).length = 1) ∧
    (∀ (o : Srt.ExtractOpts) (entries : List Srt.SrtEntry),
      ((Srt.extractChaptersFromSrt o entries).filter (fun c => c.anchor = "00")).length ≤ 1) ∧
    (∀ (o : Srt.ExtractOpts) (entries : List Srt.SrtEntry),
      Srt.extractChaptersFromSrt o entries =
        if entries.isEmpty then []
        else Srt.dedupLoop (Srt.addZeroAnchor o entries (Srt.chapterLoop o entries none [])) []) := by
  refine ⟨Srt.assembled_zero_count, ?_, fun o entries => rfl⟩
  intro o entries
  unfold Srt.extractChaptersFromSrt
  split
  · simp
  · have hs := (Srt.dedupLoop_sublist
      (Srt.addZeroAnchor o entries (Srt.chapterLoop o entries none [])) []).filter
      (fun c => c.anchor = "00")
    have h1 := hs.length_le
    have h2 := Srt.assembled_zero_count o entries
    omega

/-- C9 (counterexample): with titleMaxLen 6 the extractor can produce the
    fallback title "Chapter" of length 7, exceeding the bound: the entry
    text "?! abcdefghijklmnop" is contentful, but its title collapses to
    the empty string (sentence cut to "?!", trailing punctuation
    stripped), so pickTitle falls back to "Chapter". -/
theorem title_length_counterexample :
    Srt.extractChaptersFromSrt ⟨60000, 6, true⟩ [⟨1, 0, 1000, "?! abcdefghijklmnop"⟩] =
      [⟨"00", "Chapter"⟩] ∧
    ¬ ((("Chapter" : String).length : Int) ≤ 6) := by
  decide

/-- C9 (amended): for titleMaxLength at least 7 (so that the "Chapter"
    fallback also fits), every chapter produced by the extractor has a
    title of length at most titleMaxLength, counting the trailing
    ellipsis appended on hard truncation. -/
theorem title_length_amended :
    ∀ (o : Srt.ExtractOpts) (entries : List Srt.SrtEntry) (c : Srt.Chapter),
      7 ≤ o.titleMaxLen → c ∈ Srt.extractChaptersFromSrt o entries →
      ((c.title.length : Int) ≤ o.titleMaxLen) := by
  intro o entries c h7 hmem
  rcases Srt.extract_mem o entries c hmem with ⟨e, _, _, ht⟩ | ⟨_, ⟨txt, ht⟩⟩ <;>
  · rw [ht]
    exact Srt.pickTitle_length _ _ _ h7

theorem title_length_amended_witness :
    (7 : Int) ≤ Srt.defaultOpts.titleMaxLen ∧
    (⟨"00", "Abcdefghijklmnopqr"⟩ : Srt.Chapter) ∈
      Srt.extractChaptersFromSrt Srt.defaultOpts [⟨1, 0, 1000, "abcdefghijklmnopqr"⟩] ∧
    ((("Abcdefghijklmnopqr" : String).length : Int) ≤ Srt.defaultOpts.titleMaxLen) :=
  ⟨by decide, by decide,
    title_length_amended Srt.defaultOpts [⟨1, 0, 1000, "abcdefghijklmnopqr"⟩]
      ⟨"00", "Abcdefghijklmnopqr"⟩ (by decide) (by decide)⟩

/-- C8 (counterexample): the dedup pass advances prev to the current key
    even when the chapter is dropped, so a chapter can be kept although
    its key equals the key of the immediately preceding KEPT chapter:
    with assembled titles keyed a, empty, a, the source keeps the first
    and the third (the empty key overwrote prev), while the
    spec-described pass (dedupKeptLoop, comparing against the last kept
    key) keeps only the first. -/
theorem dedup_semantics_counterexample :
    Srt.extractChaptersFromSrt Srt.defaultOpts
        [⟨1, 0, 1000, "abcdefghijklmnopqr"⟩, ⟨2, 100000, 101000, "- . abcdefghijklmnop"⟩,
         ⟨3, 200000, 201000, "abcdefghijklmnopqr"⟩] =
      [⟨"00", "Abcdefghijklmnopqr"⟩, ⟨"03", "Abcdefghijklmnopqr"⟩] ∧
    Srt.dedupKeptLoop
        (Srt.addZeroAnchor Srt.defaultOpts
          [⟨1, 0, 1000, "abcdefghijklmnopqr"⟩, ⟨2, 100000, 101000, "- . abcdefghijklmnop"⟩,
           ⟨3, 200000, 201000, "abcdefghijklmnopqr"⟩]
          (Srt.chapterLoop Srt.defaultOpts
            [⟨1, 0, 1000, "abcdefghijklmnopqr"⟩, ⟨2, 100000, 101000, "- . abcdefghijklmnop"⟩,
             ⟨3, 200000, 201000, "abcdefghijklmnopqr"⟩] none [])) [] =
      [⟨"00", "Abcdefghijklmnopqr"⟩] ∧
    Srt.normKey ("Abcdefghijklmnopqr" : String).data ≠ [] := by
  decide

/-- C8 (amended): the dedup pass keeps a chapter exactly when its key is
    non-empty and differs from the key of the immediately PRECEDING
    chapter of the assembled list (kept or not): dedupLoop is the
    filter of the list zipped with its predecessor keys, and the
    extractor is the dedup of the assembled list. -/
theorem dedup_semantics_amended :
    (∀ (l : List Srt.Chapter) (prev : List Char),
      Srt.dedupLoop l prev =
        (l.zip (prev :: l.map (fun c => Srt.normKey c.title.data))).filterMap
          (fun p => if Srt.normKey p.1.title.data ≠ [] ∧ Srt.normKey p.1.title.data ≠ p.2
                    then some p.1 else none)) ∧
    (∀ (o : Srt.ExtractOpts) (entries : List Srt.SrtEntry),
      Srt.extractChaptersFromSrt o entries =
        if entries.isEmpty then []
        else Srt.dedupLoop (Srt.addZeroAnchor o entries (Srt.chapterLoop o entries none [])) []) :=
  ⟨Srt.dedupLoop_characterization, fun o entries => rfl⟩

/-- C10: anchors come from secToHHMM of an entry's start (or are the
    synthesized "00"); secToHHMM clamps at zero, so a negative start
    formats as "00"; and secToHHMM always returns a two-digit
    zero-padded minutes string, optionally preceded by an all-digit
    hours string of length at least two and a colon. -/
theorem anchor_clamp :
    (∀ ms : Int, ms < 0 → Srt.secToHHMM ms = "00") ∧
    (∀ ms : Int, ∃ mm : List Char,
      mm.length = 2 ∧ (∀ c ∈ mm, Srt.isDig c = true) ∧
      (Srt.secToHHMM ms = String.mk mm ∨
       ∃ hh : List Char, 2 ≤ hh.length ∧ (∀ c ∈ hh, Srt.isDig c = true) ∧
         Srt.secToHHMM ms = String.mk (hh ++ ':' :: mm))) ∧
    (∀ (o : Srt.ExtractOpts) (entries : List Srt.SrtEntry) (c : Srt.Chapter),
      c ∈ Srt.extractChaptersFromSrt o entries →
      c.anchor = "00" ∨ ∃ e ∈ entries, c.anchor = Srt.secToHHMM e.start) := by
  refine ⟨?_, ?_, ?_⟩
  · intro ms hms
    have h1 : Int.fdiv ms 1000 ≤ 0 := Srt.fdiv_thousand_nonpos ms hms
    have h2 : (max 0 (Int.fdiv ms 1000)) = 0 := by omega
    simp only [Srt.secToHHMM, h2]
    decide
  · intro ms
    set t := (max 0 (Int.fdiv ms 1000)).toNat with hts
    refine ⟨Srt.pad2 (Srt.natToChars (t % 3600 / 60)),
      Srt.pad2_length_of_le _ (Srt.natToChars_length_le_two _ (by omega)),
      Srt.pad2_all_dig _ (Srt.natToChars_all_dig _), ?_⟩
    by_cases hh : t / 3600 > 0
    · right
      refine ⟨Srt.pad2 (Srt.natToChars (t / 3600)), Srt.pad2_length_ge _,
        Srt.pad2_all_dig _ (Srt.natToChars_all_dig _), ?_⟩
      simp only [Srt.secToHHMM]
      rw [← hts, if_pos hh]
    · left
      simp only [Srt.secToHHMM]
      rw [← hts, if_neg hh]
  · intro o entries c hmem
    rcases Srt.extract_mem o entries c hmem with ⟨e, he, ha, _⟩ | ⟨h00, _⟩
    · right; exact ⟨e, he, ha⟩
    · left; exact h00

/-- C4 (counterexample): cleanLine is not idempotent: on "A: B: c" the
    first pass strips the label "A: ", and a second pass strips the
    further label "B: " that the first left in place. -/
theorem clean_idempotent_counterexample :
    Srt.cleanLine (Srt.cleanLine "A: B: c") ≠ Srt.cleanLine "A: B: c" ∧
    Srt.cleanLine "A: B: c" = "B: c" ∧ Srt.cleanLine "B: c" = "c" := by
  decide

/-- C4 (amended): conditional idempotence.  If the cleaned text is a fixed
    point of the four removal passes (tags, ASS tags, one leading speaker
    label, bracketed cues), then cleaning it again changes nothing: the
    byte-order-mark filter, the control-character replacement, the quote
    and dash normalization, the whitespace collapse, the trim and the
    pure-punctuation test are all invariant on the image of cleanLine.
    (Unconditionally the claim is false by the counterexample, and no
    fixed number of passes suffices: each extra pass can strip one more
    stacked label.) -/
theorem clean_idempotent_amended :
    ∀ s : String,
      Srt.stripTags (Srt.cleanLine s).data = (Srt.cleanLine s).data →
      Srt.stripAss (Srt.cleanLine s).data = (Srt.cleanLine s).data →
      Srt.stripLabel (Srt.cleanLine s).data = (Srt.cleanLine s).data →
      Srt.stripCues (Srt.cleanLine s).data = (Srt.cleanLine s).data →
      Srt.cleanLine (Srt.cleanLine s) = Srt.cleanLine s := by
  intro s h3 h4 h5 h6
  have e1 : (Srt.cleanLine s).data = Srt.cleanLineL s.data := rfl
  rw [e1] at h3 h4 h5 h6
  have s1 : (Srt.cleanLineL s.data).filter (fun c => c.toNat ≠ 0xfeff) =
      Srt.cleanLineL s.data :=
    List.filter_eq_self.mpr (fun c hc => by
      simp only [decide_eq_true_eq]
      exact (Srt.cleanLine_chars s.data c hc).1)
  have s2 : (Srt.cleanLineL s.data).map (fun c => if c.toNat ≤ 0x1f then ' ' else c) =
      Srt.cleanLineL s.data :=
    Srt.map_id_of_mem _ (fun c hc => if_neg (Srt.cleanLine_chars s.data c hc).2.1)
  have s7 : (Srt.cleanLineL s.data).map Srt.normalizeChar = Srt.cleanLineL s.data :=
    Srt.map_id_of_mem _ (fun c hc => (Srt.cleanLine_chars s.data c hc).2.2)
  have s8 := Srt.cleanLineL_fixed s.data
  have hpunct := Srt.cleanLineL_not_punct s.data
  have key : Srt.cleanLineL (Srt.cleanLineL s.data) = Srt.cleanLineL s.data := by
    generalize hT : Srt.cleanLineL s.data = T at s1 s2 s7 s8 hpunct h3 h4 h5 h6
    obtain ⟨s8c, s8t⟩ := s8
    simp only [Srt.cleanLineL]
    rw [s1, s2, h3, h4, h5, h6, s7, s8c, s8t]
    rw [if_neg hpunct]
  show String.mk (Srt.cleanLineL (Srt.cleanLineL s.data)) = String.mk (Srt.cleanLineL s.data)
  rw [key]

theorem clean_idempotent_amended_witness :
    (Srt.stripTags (Srt.cleanLine "LUKE: hello <b>there</b> everyone").data =
        (Srt.cleanLine "LUKE: hello <b>there</b> everyone").data ∧
      Srt.stripAss (Srt.cleanLine "LUKE: hello <b>there</b> everyone").data =
        (Srt.cleanLine "LUKE: hello <b>there</b> everyone").data ∧
      Srt.stripLabel (Srt.cleanLine "LUKE: hello <b>there</b> everyone").data =
        (Srt.cleanLine "LUKE: hello <b>there</b> everyone").data ∧
      Srt.stripCues (Srt.cleanLine "LUKE: hello <b>there</b> everyone").data =
        (Srt.cleanLine "LUKE: hello <b>there</b> everyone").data) ∧
    Srt.cleanLine (Srt.cleanLine "LUKE: hello <b>there</b> everyone") =
      Srt.cleanLine "LUKE: hello <b>there</b> everyone" :=
  ⟨⟨by decide, by decide, by decide, by decide⟩,
    clean_idempotent_amended "LUKE: hello <b>there</b> everyone"
      (by decide) (by decide) (by decide) (by decide)⟩

/-- C7: the extractor's output is the erasure of the annotated extractor;
    every chapter derived from a real entry has a contentful source (a
    word character and at least eighteen characters of text); and the
    source entries of two adjacent output chapters that are both real
    differ in start time by at least minGapSec in absolute value (times
    on the model's millisecond scale).  When minGapSec is nonnegative the
    kept anchors form a chain of gaps of at least minGapSec whose
    differences only grow after the dedup pass drops chapters; when it is
    negative the bound is trivial. -/
theorem chapter_gap_invariant :
    (∀ (o : Srt.ExtractOpts) (entries : List Srt.SrtEntry),
      Srt.extractChaptersFromSrt o entries =
        (Srt.extractChaptersA o entries).map Srt.AChapter.c) ∧
    (∀ (o : Srt.ExtractOpts) (entries : List Srt.SrtEntry)
        (c : Srt.AChapter) (e : Srt.SrtEntry),
      c ∈ Srt.extractChaptersA o entries → c.src = some e →
      e.text.data.any Srt.isWordChar = true ∧ 18 ≤ e.text.length) ∧
    (∀ (o : Srt.ExtractOpts) (entries : List Srt.SrtEntry)
        (pre post : List Srt.AChapter) (c1 c2 : Srt.AChapter) (e1 e2 : Srt.SrtEntry),
      Srt.extractChaptersA o entries = pre ++ c1 :: c2 :: post →
      c1.src = some e1 → c2.src = some e2 →
      o.minGapSec ≤ |e2.start - e1.start|) := by
  refine ⟨Srt.extract_erasure, ?_, ?_⟩
  · intro o entries c e hmem hsrc
    unfold Srt.extractChaptersA at hmem
    split at hmem
    · simp at hmem
    · have h2 := (Srt.dedupLoopA_sublist _ _).subset hmem
      rcases Srt.addZeroAnchorA_mem o entries _ c h2 with h3 | h3
      · exact Srt.chapterLoopA_contentful o entries none [] (by simp) c h3 e hsrc
      · rw [h3] at hsrc
        simp at hsrc
  · intro o entries pre post c1 c2 e1 e2 heq h1 h2
    rcases le_or_lt 0 o.minGapSec with hg | hg
    · have hpw := Srt.extractA_pairwise o entries hg
      rw [heq] at hpw
      have hrs : Srt.realStarts (pre ++ c1 :: c2 :: post) =
          Srt.realStarts pre ++ e1.start :: e2.start :: Srt.realStarts post := by
        simp [Srt.realStarts, List.filterMap_append, List.filterMap_cons, h1, h2]
      rw [hrs] at hpw
      have hp2 := (List.pairwise_append.mp hpw).2.1
      have hrel := (List.pairwise_cons.mp hp2).1 e2.start (by simp)
      exact le_trans hrel (le_abs_self _)
    · exact le_trans (le_of_lt hg) (abs_nonneg _)

theorem chapter_gap_invariant_witness :
    ((⟨⟨"01", "Bcdefghijklmnopqrs"⟩, some ⟨2, 60000, 61000, "bcdefghijklmnopqrs"⟩⟩ :
        Srt.AChapter) ∈
      Srt.extractChaptersA Srt.defaultOpts
        [⟨1, 0, 1000, "abcdefghijklmnopqr"⟩, ⟨2, 60000, 61000, "bcdefghijklmnopqrs"⟩] ∧
      ("bcdefghijklmnopqrs" : String).data.any Srt.isWordChar = true ∧
      18 ≤ ("bcdefghijklmnopqrs" : String).length) ∧
    (Srt.defaultOpts.minGapSec ≤
      |(⟨2, 60000, 61000, "bcdefghijklmnopqrs"⟩ : Srt.SrtEntry).start -
        (⟨1, 0, 1000, "abcdefghijklmnopqr"⟩ : Srt.SrtEntry).start|) :=
  ⟨⟨by decide,
    chapter_gap_invariant.2.1 Srt.defaultOpts
      [⟨1, 0, 1000, "abcdefghijklmnopqr"⟩, ⟨2, 60000, 61000, "bcdefghijklmnopqrs"⟩]
      ⟨⟨"01", "Bcdefghijklmnopqrs"⟩, some ⟨2, 60000, 61000, "bcdefghijklmnopqrs"⟩⟩
      ⟨2, 60000, 61000, "bcdefghijklmnopqrs"⟩ (by decide) rfl⟩,
    chapter_gap_invariant.2.2 Srt.defaultOpts
      [⟨1, 0, 1000, "abcdefghijklmnopqr"⟩, ⟨2, 60000, 61000, "bcdefghijklmnopqrs"⟩]
      [] []
      ⟨⟨"00", "Abcdefghijklmnopqr"⟩, some ⟨1, 0, 1000, "abcdefghijklmnopqr"⟩⟩
      ⟨⟨"01", "Bcdefghijklmnopqrs"⟩, some ⟨2, 60000, 61000, "bcdefghijklmnopqrs"⟩⟩
      ⟨1, 0, 1000, "abcdefghijklmnopqr"⟩ ⟨2, 60000, 61000, "bcdefghijklmnopqrs"⟩
      (by decide) rfl rfl⟩

theorem anchor_clamp_witness :
    ((-5000 : Int) < 0 ∧ Srt.secToHHMM (-5000) = "00") ∧
    ((⟨"00", "Abcdefghijklmnopqr"⟩ : Srt.Chapter) ∈
        Srt.extractChaptersFromSrt Srt.defaultOpts [⟨1, -5000, 1000, "abcdefghijklmnopqr"⟩] ∧
      ((⟨"00", "Abcdefghijklmnopqr"⟩ : Srt.Chapter).anchor = "00" ∨
        ∃ e ∈ ([⟨1, -5000, 1000, "abcdefghijklmnopqr"⟩] : List Srt.SrtEntry),
          (⟨"00", "Abcdefghijklmnopqr"⟩ : Srt.Chapter).anchor = Srt.secToHHMM e.start)) :=
  ⟨⟨by decide, anchor_clamp.1 (-5000) (by decide)⟩,
    ⟨by decide,
      anchor_clamp.2.2 Srt.defaultOpts [⟨1, -5000, 1000, "abcdefghijklmnopqr"⟩]
        ⟨"00", "Abcdefghijklmnopqr"⟩ (by decide)⟩⟩

end Claims
